import Mathlib

/-!
Verification of the bin-storage layer of the ddsketch quantile sketch
(src/ddsketch/store.py): the unbounded `DenseStore` and the bounded
`CollapsingLowestDenseStore`.

The Python classes are embedded shallowly: a store is a record of its
fields, every method becomes a pure function from the old record to the
new one, and Python list subscripts (which wrap negative indices and
raise `IndexError` when out of range) are modelled by total functions
together with executable in-bounds predicates (`idxOK`, `rangeOK`,
`addOK`, `mergeOK`) that hold exactly when the source would not raise.
Counters are `Nat` (they only ever accumulate non-negative increments),
keys and sizes are `Int` (Python ints).
-/

/-- Module constant `INITIAL_NBINS = 128` from src/ddsketch/store.py. -/
def INITIAL_NBINS : Int := 128

/-- Module constant `CHUNK_SIZE = 128` from src/ddsketch/store.py. -/
def CHUNK_SIZE : Int := 128

/-- Ceiling division, modelling Python `math.ceil(a / b)` for `b > 0`.
The source routes through float division; for the integer magnitudes the
store works with the result is the exact ceiling.  `b = 0` raises
`ZeroDivisionError` in the source; every theorem below assumes
`1 <= chunk_size` where this is used. -/
def ceilIntDiv (a b : Int) : Int := -((-a) / b)

/-- Python list index resolution: a negative index wraps around the end
(`l[-1]` is the last element). -/
def pyIdx (n : Nat) (i : Int) : Int := if i < 0 then i + n else i

/-- Whether a Python subscript `l[i]` on a list of length `n` is in
bounds (otherwise the source raises `IndexError`). -/
def idxOK (n : Nat) (i : Int) : Bool := decide (0 ≤ pyIdx n i) && decide (pyIdx n i < n)

/-- Python read `l[i]` (wrapping a negative index), defaulting to 0 out
of bounds; used only where in-boundedness is either proved or assumed. -/
def pyGetD (l : List Nat) (i : Int) : Nat := l.getD (pyIdx l.length i).toNat 0

/-- Python update `l[i] += v`. -/
def pyAddAt (l : List Nat) (i : Int) (v : Nat) : List Nat :=
  l.set (pyIdx l.length i).toNat (l.getD (pyIdx l.length i).toNat 0 + v)

/-- Python assignment `l[i] = v`. -/
def pySetAt (l : List Nat) (i : Int) (v : Nat) : List Nat :=
  l.set (pyIdx l.length i).toNat v

/-- The state of a `DenseStore` (src/ddsketch/store.py, class
`DenseStore`): all fields set by `DenseStore.__init__`. -/
structure DenseStore where
  initialNbins : Int
  chunkSize : Int
  initialChunkSize : Int
  count : Nat
  minKey : Int
  maxKey : Int
  bins : List Nat
deriving Repr, DecidableEq

/-- `DenseStore.__init__(initial_nbins, chunk_size)`: no validation is
performed; `[0] * n` yields the empty list for `n <= 0`. -/
def DenseStore.init (initial_nbins chunk_size : Int) : DenseStore :=
  { initialNbins := initial_nbins
    chunkSize := chunk_size
    initialChunkSize := chunk_size
    count := 0
    minKey := 0
    maxKey := 0
    bins := List.replicate initial_nbins.toNat 0 }

/-- `DenseStore.length()`: the number of bins. -/
def DenseStore.length (s : DenseStore) : Nat := s.bins.length

/-- `DenseStore._grow_by(required_growth)`: the number of bins to grow
by, `chunk_size * math.ceil(required_growth / chunk_size)`. -/
def growBy (chunkSize required : Int) : Int := chunkSize * ceilIntDiv required chunkSize

/-- `DenseStore._grow_left(key)`: prepend zero bins so that `min_key`
drops by a multiple of `chunk_size` sufficient to cover `key`. -/
def DenseStore.growLeft (s : DenseStore) (key : Int) : DenseStore :=
  if s.minKey < key then s
  else
    let minKey := s.minKey - growBy s.chunkSize (s.minKey - key)
    { s with bins := List.replicate (s.minKey - minKey).toNat 0 ++ s.bins, minKey := minKey }

/-- `DenseStore._grow_right(key)`: append zero bins so that `max_key`
rises by a multiple of `chunk_size` sufficient to cover `key`. -/
def DenseStore.growRight (s : DenseStore) (key : Int) : DenseStore :=
  if s.maxKey > key then s
  else
    let maxKey := s.maxKey + growBy s.chunkSize (key - s.maxKey)
    { s with bins := s.bins ++ List.replicate (maxKey - s.maxKey).toNat 0, maxKey := maxKey }

/-- The first half of `DenseStore.add(key)` (shared by both variants,
with the growth methods dispatched virtually in the source): re-seed an
empty bin list, then either initialise the key window (first insertion)
or grow towards `key`. -/
def addPrepWith (growL growR : DenseStore → Int → DenseStore) (s : DenseStore) (key : Int) :
    DenseStore :=
  let s1 := if s.bins.length = 0
    then { s with bins := List.replicate s.initialChunkSize.toNat 0 } else s
  if s1.count = 0 then { s1 with maxKey := key, minKey := key - s1.bins.length + 1 }
  else if key < s1.minKey then growL s1 key
  else if key > s1.maxKey then growR s1 key
  else s1

/-- `DenseStore.add(key)` generic in the growth methods: after
preparation, increment the bin at index `max(0, key - min_key)` and the
total count. -/
def addWith (growL growR : DenseStore → Int → DenseStore) (s : DenseStore) (key : Int) :
    DenseStore :=
  let t := addPrepWith growL growR s key
  { t with bins := pyAddAt t.bins (max 0 (key - t.minKey)) 1, count := t.count + 1 }

/-- Whether `DenseStore.add(key)` (generic) performs its bin update in
bounds; the index is non-negative by construction, so only the upper
bound matters. -/
def addOKWith (growL growR : DenseStore → Int → DenseStore) (s : DenseStore) (key : Int) :
    Bool :=
  let t := addPrepWith growL growR s key
  idxOK t.bins.length (max 0 (key - t.minKey))

/-- `DenseStore.add(key)` with the dense (unbounded) growth methods. -/
def DenseStore.add (s : DenseStore) (key : Int) : DenseStore :=
  addWith DenseStore.growLeft DenseStore.growRight s key

/-- In-bounds predicate for `DenseStore.add`. -/
def DenseStore.addOK (s : DenseStore) (key : Int) : Bool :=
  addOKWith DenseStore.growLeft DenseStore.growRight s key

/-- The loop of `DenseStore.key_at_rank(rank)`: walk the bins in
ascending key order accumulating `running_ct` until it reaches `rank`. -/
def keyAtRankGo (minKey maxKey rank : Int) : List Nat → Int → Nat → Int
  | [], _, _ => maxKey
  | b :: rest, i, running =>
    if rank ≤ ((running + b : Nat) : Int) then minKey + i
    else keyAtRankGo minKey maxKey rank rest (i + 1) (running + b)

/-- `DenseStore.key_at_rank(rank)`. -/
def DenseStore.keyAtRank (s : DenseStore) (rank : Int) : Int :=
  keyAtRankGo s.minKey s.maxKey rank s.bins 0 0

/-- `DenseStore.copy(store)`: replace this store's statistics with the
other's (the configuration fields are left alone, as in the source). -/
def DenseStore.copyFrom (s o : DenseStore) : DenseStore :=
  { s with bins := o.bins, count := o.count, minKey := o.minKey, maxKey := o.maxKey }

/-- The merge loop `for i in range(lo, hi + 1): a[i - aMin] += b[i - bMin]`,
recursing on the number of remaining iterations. -/
def mergeRangeAux (b : List Nat) (aMin bMin : Int) : Nat → Int → List Nat → List Nat
  | 0, _, a => a
  | n + 1, i, a => mergeRangeAux b aMin bMin n (i + 1) (pyAddAt a (i - aMin) (pyGetD b (i - bMin)))

/-- The merge loop over the inclusive key range `[lo, hi]`. -/
def mergeRange (a b : List Nat) (aMin bMin lo hi : Int) : List Nat :=
  mergeRangeAux b aMin bMin (hi + 1 - lo).toNat lo a

/-- In-bounds predicate for one tail of the merge loop. -/
def rangeOKAux (aLen bLen : Nat) (aMin bMin : Int) : Nat → Int → Bool
  | 0, _ => true
  | n + 1, i =>
    idxOK aLen (i - aMin) && idxOK bLen (i - bMin) && rangeOKAux aLen bLen aMin bMin n (i + 1)

/-- In-bounds predicate for the merge loop over `[lo, hi]`. -/
def rangeOK (aLen bLen : Nat) (aMin bMin lo hi : Int) : Bool :=
  rangeOKAux aLen bLen aMin bMin (hi + 1 - lo).toNat lo

/-- The total mass the merge loop reads from its source list `b`:
`sum of b[i - bMin] for n iterations starting at i`. -/
def sumRangeAux (b : List Nat) (bMin : Int) : Nat → Int → Nat
  | 0, _ => 0
  | n + 1, i => pyGetD b (i - bMin) + sumRangeAux b bMin n (i + 1)

/-- `DenseStore.merge(store)` generic in the virtually dispatched growth
methods, for the case where both counts are non-zero.  Mirrors the three
branches of the source. -/
def mergeBodyWith (growL growR : DenseStore → Int → DenseStore) (s o : DenseStore) :
    DenseStore :=
  if o.maxKey < s.maxKey then
    let s1 := if o.minKey < s.minKey then growL s o.minKey else s
    let s2 := { s1 with
      bins := mergeRange s1.bins o.bins s1.minKey o.minKey (max s1.minKey o.minKey) o.maxKey }
    let s3 := if o.minKey < s2.minKey then
        { s2 with bins := pyAddAt s2.bins 0 ((o.bins.take (s2.minKey - o.minKey).toNat).sum) }
      else s2
    { s3 with count := s3.count + o.count }
  else if o.minKey < s.minKey then
    { s with bins := mergeRange o.bins s.bins o.minKey s.minKey s.minKey s.maxKey,
             maxKey := o.maxKey, minKey := o.minKey, count := s.count + o.count }
  else
    let s1 := growR s o.maxKey
    let s2 := { s1 with bins := mergeRange s1.bins o.bins s1.minKey o.minKey o.minKey o.maxKey }
    { s2 with count := s2.count + o.count }

/-- In-bounds predicate matching `mergeBodyWith` branch by branch. -/
def mergeBodyOKWith (growL growR : DenseStore → Int → DenseStore) (s o : DenseStore) : Bool :=
  if o.maxKey < s.maxKey then
    let s1 := if o.minKey < s.minKey then growL s o.minKey else s
    rangeOK s1.bins.length o.bins.length s1.minKey o.minKey (max s1.minKey o.minKey) o.maxKey
      && (if o.minKey < s1.minKey then idxOK s1.bins.length 0 else true)
  else if o.minKey < s.minKey then
    rangeOK o.bins.length s.bins.length o.minKey s.minKey s.minKey s.maxKey
  else
    let s1 := growR s o.maxKey
    rangeOK s1.bins.length o.bins.length s1.minKey o.minKey o.minKey o.maxKey

/-- `DenseStore.merge(store)`: early return on an empty argument, copy
into an empty target, otherwise the three-branch body. -/
def DenseStore.merge (s o : DenseStore) : DenseStore :=
  if o.count = 0 then s
  else if s.count = 0 then s.copyFrom o
  else mergeBodyWith DenseStore.growLeft DenseStore.growRight s o

/-- In-bounds predicate for `DenseStore.merge`. -/
def DenseStore.mergeOK (s o : DenseStore) : Bool :=
  if o.count = 0 then true
  else if s.count = 0 then true
  else mergeBodyOKWith DenseStore.growLeft DenseStore.growRight s o

/-- The state of a `CollapsingLowestDenseStore`: the inherited
`DenseStore` fields plus the `max_bins` cap. -/
structure CollapsingLowestDenseStore extends DenseStore where
  maxBins : Int
deriving Repr, DecidableEq

/-- `CollapsingLowestDenseStore.__init__(max_bins, initial_nbins,
chunk_size)`: `super().__init__()` is called with no arguments, so
`chunk_size` stays at the module default `CHUNK_SIZE`; the subclass then
resets `initial_nbins`, `initial_chunk_size` and `bins` clamped by
`max_bins`. -/
def CollapsingLowestDenseStore.init (max_bins initial_nbins chunk_size : Int) :
    CollapsingLowestDenseStore :=
  { initialNbins := min max_bins initial_nbins
    chunkSize := CHUNK_SIZE
    initialChunkSize := min max_bins chunk_size
    count := 0
    minKey := 0
    maxKey := 0
    bins := List.replicate (min max_bins initial_nbins).toNat 0
    maxBins := max_bins }

/-- `CollapsingLowestDenseStore.length()`: inherited from `DenseStore`. -/
def CollapsingLowestDenseStore.length (s : CollapsingLowestDenseStore) : Nat :=
  s.bins.length

/-- `CollapsingLowestDenseStore._grow_left(key)` on the inherited
fields, with `max_bins` passed explicitly: no-op when already at
capacity, otherwise grow by chunks but never below
`min_possible = max_key - max_bins + 1`. -/
def collGrowLeft (maxBins : Int) (s : DenseStore) (key : Int) : DenseStore :=
  if s.minKey < key ∨ maxBins ≤ (s.bins.length : Int) then s
  else
    let minPossible := s.maxKey - maxBins + 1
    let minKey := if maxBins ≤ s.maxKey - key then minPossible
      else max (s.minKey - growBy s.chunkSize (s.minKey - key)) minPossible
    { s with bins := List.replicate (s.minKey - minKey).toNat 0 ++ s.bins, minKey := minKey }

/-- `CollapsingLowestDenseStore._grow_right(key)` on the inherited
fields: collapse everything into one bin when the key is at least
`max_bins` past `max_key`; shift and fold the left end when the key is
at least `max_bins` past `min_key`; otherwise chunked right growth
capped at `min_key + max_bins`. -/
def collGrowRight (maxBins : Int) (s : DenseStore) (key : Int) : DenseStore :=
  if s.maxKey > key then s
  else if maxBins ≤ key - s.maxKey then
    { s with bins := pySetAt (List.replicate maxBins.toNat 0) 0 s.count,
             maxKey := key, minKey := key - maxBins + 1 }
  else if maxBins ≤ key - s.minKey then
    let minKey := key - maxBins + 1
    let ct := (s.bins.take (minKey - s.minKey).toNat).sum
    let bins := s.bins.drop (minKey - s.minKey).toNat
      ++ List.replicate (key - s.maxKey).toNat 0
    { s with bins := pyAddAt bins 0 ct, maxKey := key, minKey := minKey }
  else
    let maxKey := min (s.maxKey + growBy s.chunkSize (key - s.maxKey)) (s.minKey + maxBins)
    { s with bins := s.bins ++ List.replicate (maxKey - s.maxKey).toNat 0, maxKey := maxKey }

/-- `CollapsingLowestDenseStore.add(key)`: the inherited `add` body with
the overridden growth methods. -/
def CollapsingLowestDenseStore.add (s : CollapsingLowestDenseStore) (key : Int) :
    CollapsingLowestDenseStore :=
  { s with toDenseStore :=
      addWith (collGrowLeft s.maxBins) (collGrowRight s.maxBins) s.toDenseStore key }

/-- In-bounds predicate for `CollapsingLowestDenseStore.add`. -/
def CollapsingLowestDenseStore.addOK (s : CollapsingLowestDenseStore) (key : Int) : Bool :=
  addOKWith (collGrowLeft s.maxBins) (collGrowRight s.maxBins) s.toDenseStore key

/-- `CollapsingLowestDenseStore.copy(store)`: copies `max_bins` and then
the inherited statistics. -/
def CollapsingLowestDenseStore.copyFrom (s o : CollapsingLowestDenseStore) :
    CollapsingLowestDenseStore :=
  { s with maxBins := o.maxBins, toDenseStore := s.toDenseStore.copyFrom o.toDenseStore }

/-- `CollapsingLowestDenseStore.merge(store)`: the inherited `merge`
body with the overridden growth methods and `copy`. -/
def CollapsingLowestDenseStore.merge (s o : CollapsingLowestDenseStore) :
    CollapsingLowestDenseStore :=
  if o.count = 0 then s
  else if s.count = 0 then s.copyFrom o
  else
    let base := mergeBodyWith (collGrowLeft s.maxBins) (collGrowRight s.maxBins)
      s.toDenseStore o.toDenseStore
    { s with toDenseStore := base }

/-- In-bounds predicate for `CollapsingLowestDenseStore.merge`. -/
def CollapsingLowestDenseStore.mergeOK (s o : CollapsingLowestDenseStore) : Bool :=
  if o.count = 0 then true
  else if s.count = 0 then true
  else mergeBodyOKWith (collGrowLeft s.maxBins) (collGrowRight s.maxBins)
    s.toDenseStore o.toDenseStore

/-- `CollapsingLowestDenseStore.key_at_rank(rank)`: inherited unchanged
from `DenseStore`. -/
def CollapsingLowestDenseStore.keyAtRank (s : CollapsingLowestDenseStore) (rank : Int) : Int :=
  s.toDenseStore.keyAtRank rank

/-- States of a `DenseStore` reachable from a validly configured
construction (`chunk_size >= 1`) through `add` and successful `merge`
operations. -/
inductive DenseReachable : DenseStore → Prop where
  | init (initial_nbins chunk_size : Int) (hc : 1 ≤ chunk_size) :
      DenseReachable (DenseStore.init initial_nbins chunk_size)
  | add (s : DenseStore) (key : Int) (hs : DenseReachable s) : DenseReachable (s.add key)
  | merge (s o : DenseStore) (hs : DenseReachable s) (ho : DenseReachable o)
      (hOK : s.mergeOK o = true) : DenseReachable (s.merge o)

/-- States of a `CollapsingLowestDenseStore` reachable from a validly
configured construction (`max_bins >= 1`, `chunk_size >= 1`) through
`add` and successful `merge` operations. -/
inductive CollReachable : CollapsingLowestDenseStore → Prop where
  | init (max_bins initial_nbins chunk_size : Int) (hm : 1 ≤ max_bins) (hc : 1 ≤ chunk_size) :
      CollReachable (CollapsingLowestDenseStore.init max_bins initial_nbins chunk_size)
  | add (s : CollapsingLowestDenseStore) (key : Int) (hs : CollReachable s) :
      CollReachable (s.add key)
  | merge (s o : CollapsingLowestDenseStore) (hs : CollReachable s) (ho : CollReachable o)
      (hOK : s.mergeOK o = true) : CollReachable (s.merge o)

/-- The logical counter a `DenseStore` holds for key `k`: the bin at
offset `k - min_key` inside the key window, zero mass outside. -/
def binAt (s : DenseStore) (k : Int) : Nat :=
  if s.minKey ≤ k ∧ k ≤ s.maxKey then s.bins.getD (k - s.minKey).toNat 0 else 0

/-- A `DenseStore` built with the default configuration by a sequence of
`add` calls. -/
def buildDense (keys : List Int) : DenseStore :=
  keys.foldl DenseStore.add (DenseStore.init INITIAL_NBINS CHUNK_SIZE)

/-- Number of occurrences of `k` in a key sequence. -/
def countOcc (keys : List Int) (k : Int) : Nat := (keys.filter (fun x => x = k)).length

/-- Cumulative count of all bins for keys `<= k`. -/
def cumLE (s : DenseStore) (k : Int) : Nat := (s.bins.take (k - s.minKey + 1).toNat).sum

/-- The structural invariant maintained by every reachable `DenseStore`:
valid growth granularity, mass conservation, and (once non-empty) the
bin list exactly covers the key window. -/
def DenseInv (s : DenseStore) : Prop :=
  1 ≤ s.chunkSize ∧ 1 ≤ s.initialChunkSize ∧ s.count = s.bins.sum ∧
    (s.count ≠ 0 → s.minKey ≤ s.maxKey ∧ (s.bins.length : Int) = s.maxKey - s.minKey + 1)

/-- The structural invariant maintained by every reachable
`CollapsingLowestDenseStore`. -/
def CollInv (s : CollapsingLowestDenseStore) : Prop :=
  1 ≤ s.maxBins ∧ DenseInv s.toDenseStore

/-- What a growth call made by `merge` preserves about the target store:
the statistics other than the bin layout, together with a well-formed
key window. -/
def PreservesStats (s t : DenseStore) : Prop :=
  t.count = s.count ∧ t.bins.sum = s.bins.sum ∧ t.chunkSize = s.chunkSize ∧
    t.initialChunkSize = s.initialChunkSize ∧ t.minKey ≤ t.maxKey ∧
    (t.bins.length : Int) = t.maxKey - t.minKey + 1

/-! ### Arithmetic facts about chunked growth -/

/-- Characterisation of `growBy`: for a positive chunk size it rounds
`required` up to the next multiple of the chunk size. -/
theorem growBy_eq (c a : Int) (hc : 1 ≤ c) : growBy c a = a + (-a) % c := by
  have h := Int.ediv_add_emod (-a) c
  unfold growBy ceilIntDiv
  linarith

theorem le_growBy (c a : Int) (hc : 1 ≤ c) : a ≤ growBy c a := by
  rw [growBy_eq c a hc]
  have := Int.emod_nonneg (-a) (by omega : c ≠ 0)
  omega

theorem growBy_lt (c a : Int) (hc : 1 ≤ c) : growBy c a < a + c := by
  rw [growBy_eq c a hc]
  have := Int.emod_lt_of_pos (-a) (by omega : 0 < c)
  omega

/-! ### List helpers -/

theorem getD_set_self (l : List Nat) (j : Nat) (v : Nat) (h : j < l.length) :
    (l.set j v).getD j 0 = v := by
  induction l generalizing j with
  | nil => simp at h
  | cons a t ih =>
    cases j with
    | zero => simp
    | succ j => simpa using ih j (by simpa using h)

theorem getD_set_ne (l : List Nat) (i j : Nat) (v : Nat) (h : i ≠ j) :
    (l.set j v).getD i 0 = l.getD i 0 := by
  induction l generalizing i j with
  | nil => simp
  | cons a t ih =>
    cases j with
    | zero => cases i with
      | zero => omega
      | succ i => simp
    | succ j => cases i with
      | zero => simp
      | succ i => simpa using ih i j (by omega)

theorem sum_set_getD_add (l : List Nat) (j : Nat) (v : Nat) (h : j < l.length) :
    (l.set j (l.getD j 0 + v)).sum = l.sum + v := by
  induction l generalizing j with
  | nil => simp at h
  | cons a t ih =>
    cases j with
    | zero => simp [List.sum_cons]; omega
    | succ j =>
      have ih' := ih j (by simpa using h)
      have hstep : ((a :: t).set (j + 1) ((a :: t).getD (j + 1) 0 + v))
          = a :: t.set j (t.getD j 0 + v) := by
        simp [List.getD_cons_succ]
      rw [hstep, List.sum_cons, List.sum_cons, ih']
      omega

theorem sum_replicate_zero (n : Nat) : (List.replicate n (0 : Nat)).sum = 0 := by
  induction n with
  | zero => simp
  | succ n ih => simp [List.replicate_succ, ih]

theorem getD_replicate_zero (n j : Nat) : (List.replicate n (0 : Nat)).getD j 0 = 0 := by
  induction n generalizing j with
  | zero => simp
  | succ n ih =>
    cases j with
    | zero => simp [List.replicate_succ]
    | succ j => simpa [List.replicate_succ] using ih j

theorem getD_append_left (l m : List Nat) (j : Nat) (h : j < l.length) :
    ((l ++ m).getD j 0) = l.getD j 0 := by
  induction l generalizing j with
  | nil => simp at h
  | cons a t ih =>
    cases j with
    | zero => simp
    | succ j => simpa using ih j (by simpa using h)

theorem getD_append_right (l m : List Nat) (j : Nat) (h : l.length ≤ j) :
    ((l ++ m).getD j 0) = m.getD (j - l.length) 0 := by
  induction l generalizing j with
  | nil => simp
  | cons a t ih =>
    cases j with
    | zero => simp at h
    | succ j => simpa using ih j (by simpa using h)

theorem sum_take_add_drop (l : List Nat) (n : Nat) :
    (l.take n).sum + (l.drop n).sum = l.sum := by
  conv_rhs => rw [← List.take_append_drop n l]
  rw [List.sum_append]

theorem drop_eq_getD_cons (l : List Nat) (n : Nat) (h : n < l.length) :
    l.drop n = l.getD n 0 :: l.drop (n + 1) := by
  induction l generalizing n with
  | nil => simp at h
  | cons a t ih =>
    cases n with
    | zero => simp
    | succ n => simpa using ih n (by simpa using h)

theorem take_of_length_le (l : List Nat) (n : Nat) (h : l.length ≤ n) : l.take n = l := by
  induction l generalizing n with
  | nil => simp
  | cons a t ih =>
    cases n with
    | zero => simp at h
    | succ n => simpa using ih n (by simpa using h)

/-! ### Facts about the Python subscript model -/

theorem idxOK_iff (n : Nat) (i : Int) :
    idxOK n i = true ↔ 0 ≤ pyIdx n i ∧ pyIdx n i < n := by
  simp [idxOK]

theorem pyIdx_of_nonneg (n : Nat) (i : Int) (h : 0 ≤ i) : pyIdx n i = i := by
  simp [pyIdx]; omega

theorem length_pyAddAt (l : List Nat) (i : Int) (v : Nat) :
    (pyAddAt l i v).length = l.length := by
  simp [pyAddAt]

theorem sum_pyAddAt (l : List Nat) (i : Int) (v : Nat) (h : idxOK l.length i = true) :
    (pyAddAt l i v).sum = l.sum + v := by
  rw [idxOK_iff] at h
  exact sum_set_getD_add l (pyIdx l.length i).toNat v (by omega)

theorem pyAddAt_eq_set (l : List Nat) (i : Int) (v : Nat) (h : 0 ≤ i) :
    pyAddAt l i v = l.set i.toNat (l.getD i.toNat 0 + v) := by
  simp [pyAddAt, pyIdx_of_nonneg _ _ h]

theorem pyGetD_of_nonneg (l : List Nat) (i : Int) (h : 0 ≤ i) :
    pyGetD l i = l.getD i.toNat 0 := by
  simp [pyGetD, pyIdx_of_nonneg _ _ h]

theorem getD_pyAddAt_eq (l : List Nat) (i : Int) (v : Nat)
    (h : 0 ≤ i ∧ i < (l.length : Int)) :
    (pyAddAt l i v).getD i.toNat 0 = l.getD i.toNat 0 + v := by
  rw [pyAddAt_eq_set l i v h.1]
  exact getD_set_self l i.toNat _ (by omega)

theorem getD_pyAddAt_ne (l : List Nat) (i : Int) (v : Nat) (j : Nat)
    (hi : 0 ≤ i) (hne : (j : Int) ≠ i) :
    (pyAddAt l i v).getD j 0 = l.getD j 0 := by
  rw [pyAddAt_eq_set l i v hi]
  exact getD_set_ne l j i.toNat _ (by omega)

/-! ### Facts about the merge loop -/

theorem mergeRangeAux_length (b : List Nat) (aMin bMin : Int) :
    ∀ (n : Nat) (i : Int) (a : List Nat),
      (mergeRangeAux b aMin bMin n i a).length = a.length := by
  intro n
  induction n with
  | zero => intro i a; rfl
  | succ n ih =>
    intro i a
    rw [mergeRangeAux, ih, length_pyAddAt]

theorem rangeOKAux_elim (aLen bLen : Nat) (aMin bMin : Int) :
    ∀ (n : Nat) (i : Int), rangeOKAux aLen bLen aMin bMin n i = true →
      ∀ k : Nat, k < n →
        idxOK aLen ((i + k) - aMin) = true ∧ idxOK bLen ((i + k) - bMin) = true := by
  intro n
  induction n with
  | zero => intro i _ k hk; omega
  | succ n ih =>
    intro i h k hk
    rw [rangeOKAux] at h
    simp only [Bool.and_eq_true] at h
    rcases h with ⟨⟨h1, h2⟩, h3⟩
    cases k with
    | zero => simpa using ⟨h1, h2⟩
    | succ k =>
      have := ih (i + 1) h3 k (by omega)
      have harg : i + 1 + (k : Int) = i + ((k + 1 : Nat) : Int) := by push_cast; ring
      rwa [harg] at this

theorem mergeRangeAux_sum (b : List Nat) (aMin bMin : Int) :
    ∀ (n : Nat) (i : Int) (a : List Nat),
      (∀ k : Nat, k < n → idxOK a.length ((i + k) - aMin) = true) →
      (mergeRangeAux b aMin bMin n i a).sum = a.sum + sumRangeAux b bMin n i := by
  intro n
  induction n with
  | zero => intro i a _; simp [mergeRangeAux, sumRangeAux]
  | succ n ih =>
    intro i a hOK
    rw [mergeRangeAux, sumRangeAux]
    have hlen : (pyAddAt a (i - aMin) (pyGetD b (i - bMin))).length = a.length :=
      length_pyAddAt _ _ _
    have hOK' : ∀ k : Nat, k < n →
        idxOK (pyAddAt a (i - aMin) (pyGetD b (i - bMin))).length ((i + 1 + k) - aMin) = true := by
      intro k hk
      rw [hlen]
      have := hOK (k + 1) (by omega)
      have harg : i + ((k + 1 : Nat) : Int) = i + 1 + (k : Int) := by push_cast; ring
      rwa [harg] at this
    rw [ih (i + 1) _ hOK']
    have h0 := hOK 0 (by omega)
    simp only [Nat.cast_zero, add_zero] at h0
    rw [sum_pyAddAt a (i - aMin) _ h0]
    omega

theorem sumRangeAux_eq_sum_drop (b : List Nat) (bMin : Int) :
    ∀ (n : Nat) (i : Int), bMin ≤ i → (i - bMin).toNat + n = b.length →
      sumRangeAux b bMin n i = (b.drop (i - bMin).toNat).sum := by
  intro n
  induction n with
  | zero =>
    intro i _ hlen
    rw [sumRangeAux]
    have : (i - bMin).toNat = b.length := by omega
    rw [this, List.drop_length]
    rfl
  | succ n ih =>
    intro i hle hlen
    rw [sumRangeAux]
    have hk : (i - bMin).toNat < b.length := by omega
    rw [drop_eq_getD_cons b _ hk, List.sum_cons]
    have hrec := ih (i + 1) (by omega) (by omega)
    have harg : (i + 1 - bMin).toNat = (i - bMin).toNat + 1 := by omega
    rw [harg] at hrec
    rw [hrec, pyGetD_of_nonneg b (i - bMin) (by omega)]

theorem sumRangeAux_eq_sum (b : List Nat) (bMin : Int) (n : Nat)
    (hn : n = b.length) : sumRangeAux b bMin n bMin = b.sum := by
  have := sumRangeAux_eq_sum_drop b bMin n bMin le_rfl (by omega)
  simpa using this

theorem mergeRange_length (a b : List Nat) (aMin bMin lo hi : Int) :
    (mergeRange a b aMin bMin lo hi).length = a.length :=
  mergeRangeAux_length b aMin bMin _ lo a

theorem rangeOK_elim (aLen bLen : Nat) (aMin bMin lo hi : Int)
    (h : rangeOK aLen bLen aMin bMin lo hi = true) :
    ∀ i : Int, lo ≤ i → i ≤ hi →
      idxOK aLen (i - aMin) = true ∧ idxOK bLen (i - bMin) = true := by
  intro i hlo hhi
  have hk : (i - lo).toNat < (hi + 1 - lo).toNat := by omega
  have := rangeOKAux_elim aLen bLen aMin bMin _ lo h (i - lo).toNat hk
  have harg : lo + ((i - lo).toNat : Int) = i := by omega
  rwa [harg] at this

theorem mergeRange_sum (a b : List Nat) (aMin bMin lo hi : Int)
    (hOK : ∀ i : Int, lo ≤ i → i ≤ hi → idxOK a.length (i - aMin) = true) :
    (mergeRange a b aMin bMin lo hi).sum = a.sum + sumRangeAux b bMin (hi + 1 - lo).toNat lo := by
  refine mergeRangeAux_sum b aMin bMin _ lo a ?_
  intro k hk
  exact hOK (lo + k) (by omega) (by omega)

/-! ### Specifications of the growth operations -/

theorem DenseStore.growLeft_spec (s : DenseStore) (key : Int)
    (hc : 1 ≤ s.chunkSize) (hk : key ≤ s.minKey) :
    (s.growLeft key).minKey ≤ key ∧ (s.growLeft key).minKey ≤ s.minKey ∧
    (s.growLeft key).maxKey = s.maxKey ∧ (s.growLeft key).count = s.count ∧
    (s.growLeft key).chunkSize = s.chunkSize ∧
    (s.growLeft key).initialChunkSize = s.initialChunkSize ∧
    (s.growLeft key).bins.sum = s.bins.sum ∧
    ((s.growLeft key).bins.length : Int) = s.bins.length + (s.minKey - (s.growLeft key).minKey) := by
  have hg := le_growBy s.chunkSize (s.minKey - key) hc
  unfold DenseStore.growLeft
  split
  · omega
  · refine ⟨?_, ?_, ?_, ?_, ?_, ?_, ?_, ?_⟩
    · dsimp only; omega
    · dsimp only; omega
    · rfl
    · rfl
    · rfl
    · rfl
    · dsimp only
      rw [List.sum_append, sum_replicate_zero]
      omega
    · dsimp only
      rw [List.length_append, List.length_replicate]
      push_cast
      omega

theorem DenseStore.growRight_spec (s : DenseStore) (key : Int)
    (hc : 1 ≤ s.chunkSize) (hk : s.maxKey ≤ key) :
    key ≤ (s.growRight key).maxKey ∧ s.maxKey ≤ (s.growRight key).maxKey ∧
    (s.growRight key).minKey = s.minKey ∧ (s.growRight key).count = s.count ∧
    (s.growRight key).chunkSize = s.chunkSize ∧
    (s.growRight key).initialChunkSize = s.initialChunkSize ∧
    (s.growRight key).bins.sum = s.bins.sum ∧
    ((s.growRight key).bins.length : Int)
      = s.bins.length + ((s.growRight key).maxKey - s.maxKey) := by
  have hg := le_growBy s.chunkSize (key - s.maxKey) hc
  unfold DenseStore.growRight
  split
  · omega
  · refine ⟨?_, ?_, ?_, ?_, ?_, ?_, ?_, ?_⟩
    · dsimp only; omega
    · dsimp only; omega
    · rfl
    · rfl
    · rfl
    · rfl
    · dsimp only
      rw [List.sum_append, sum_replicate_zero]
      omega
    · dsimp only
      rw [List.length_append, List.length_replicate]
      push_cast
      omega

theorem collGrowLeft_spec (m : Int) (s : DenseStore) (key : Int)
    (hm : 1 ≤ m) (hc : 1 ≤ s.chunkSize) (hk : key ≤ s.minKey)
    (hlo : s.minKey ≤ s.maxKey)
    (hwin : (s.bins.length : Int) = s.maxKey - s.minKey + 1) :
    (collGrowLeft m s key).minKey ≤ s.minKey ∧
    (collGrowLeft m s key).maxKey = s.maxKey ∧ (collGrowLeft m s key).count = s.count ∧
    (collGrowLeft m s key).chunkSize = s.chunkSize ∧
    (collGrowLeft m s key).initialChunkSize = s.initialChunkSize ∧
    (collGrowLeft m s key).bins.sum = s.bins.sum ∧
    ((collGrowLeft m s key).bins.length : Int)
      = s.bins.length + (s.minKey - (collGrowLeft m s key).minKey) := by
  have hg := le_growBy s.chunkSize (s.minKey - key) hc
  unfold collGrowLeft
  split
  · exact ⟨le_rfl, rfl, rfl, rfl, rfl, rfl, by omega⟩
  · rename_i hguard
    push_neg at hguard
    refine ⟨?_, ?_, ?_, ?_, ?_, ?_, ?_⟩
    · dsimp only; split <;> omega
    · rfl
    · rfl
    · rfl
    · rfl
    · dsimp only
      rw [List.sum_append, sum_replicate_zero]
      omega
    · dsimp only
      rw [List.length_append, List.length_replicate]
      push_cast
      split <;> omega

theorem length_pySetAt (l : List Nat) (i : Int) (v : Nat) :
    (pySetAt l i v).length = l.length := by
  simp [pySetAt]

theorem sum_pySetAt_zero_replicate (n : Nat) (v : Nat) (h : 1 ≤ n) :
    (pySetAt (List.replicate n (0 : Nat)) 0 v).sum = v := by
  cases n with
  | zero => omega
  | succ n =>
    simp [pySetAt, pyIdx, List.replicate_succ, sum_replicate_zero]

theorem collGrowRight_spec (m : Int) (s : DenseStore) (key : Int)
    (hm : 1 ≤ m) (hc : 1 ≤ s.chunkSize) (hk : s.maxKey ≤ key)
    (hlo : s.minKey ≤ s.maxKey)
    (hwin : (s.bins.length : Int) = s.maxKey - s.minKey + 1)
    (hcnt : s.count = s.bins.sum) :
    (collGrowRight m s key).minKey ≤ key ∧ key ≤ (collGrowRight m s key).maxKey ∧
    (collGrowRight m s key).count = s.count ∧
    (collGrowRight m s key).chunkSize = s.chunkSize ∧
    (collGrowRight m s key).initialChunkSize = s.initialChunkSize ∧
    (collGrowRight m s key).bins.sum = s.bins.sum ∧
    ((collGrowRight m s key).bins.length : Int)
      = (collGrowRight m s key).maxKey - (collGrowRight m s key).minKey + 1 := by
  have hlen1 : 1 ≤ s.bins.length := by omega
  unfold collGrowRight
  split
  · omega
  · split
    · -- whole distribution collapses into a single bin
      refine ⟨?_, ?_, ?_, ?_, ?_, ?_, ?_⟩
      · dsimp only; omega
      · dsimp only; omega
      · rfl
      · rfl
      · rfl
      · dsimp only
        rw [sum_pySetAt_zero_replicate m.toNat s.count (by omega), hcnt]
      · dsimp only
        rw [length_pySetAt]
        rw [List.length_replicate]
        omega
    · split
      · -- fold the excess left bins into the new bin 0
        rename_i hnotA hB
        have hkInt : (key - m + 1 - s.minKey).toNat ≤ s.bins.length := by omega
        have hlen0 : (List.drop (key - m + 1 - s.minKey).toNat s.bins
            ++ List.replicate (key - s.maxKey).toNat 0).length
            = (s.bins.length - (key - m + 1 - s.minKey).toNat) + (key - s.maxKey).toNat := by
          rw [List.length_append, List.length_drop, List.length_replicate]
        have hidx : idxOK (List.drop (key - m + 1 - s.minKey).toNat s.bins
            ++ List.replicate (key - s.maxKey).toNat 0).length 0 = true := by
          rw [idxOK_iff, hlen0]
          have : 0 ≤ pyIdx ((s.bins.length - (key - m + 1 - s.minKey).toNat)
              + (key - s.maxKey).toNat) 0 ∧
              pyIdx ((s.bins.length - (key - m + 1 - s.minKey).toNat)
              + (key - s.maxKey).toNat) 0 = 0 := by
            unfold pyIdx
            norm_num
          refine ⟨this.1, ?_⟩
          rw [this.2]
          push_cast
          omega
        refine ⟨?_, ?_, ?_, ?_, ?_, ?_, ?_⟩
        · dsimp only; omega
        · dsimp only; omega
        · rfl
        · rfl
        · rfl
        · dsimp only
          rw [sum_pyAddAt _ _ _ hidx]
          rw [List.sum_append, sum_replicate_zero]
          have := sum_take_add_drop s.bins (key - m + 1 - s.minKey).toNat
          omega
        · dsimp only
          rw [length_pyAddAt, hlen0]
          push_cast
          omega
      · -- ordinary chunked growth capped at min_key + max_bins
        rename_i hnotA hnotB
        have hg := le_growBy s.chunkSize (key - s.maxKey) hc
        refine ⟨?_, ?_, ?_, ?_, ?_, ?_, ?_⟩
        · dsimp only; omega
        · dsimp only; omega
        · rfl
        · rfl
        · rfl
        · dsimp only
          rw [List.sum_append, sum_replicate_zero]
          omega
        · dsimp only
          rw [List.length_append, List.length_replicate]
          push_cast
          omega

/-! ### Branch equations for add -/

theorem addPrep_empty_zero (growL growR : DenseStore → Int → DenseStore) (s : DenseStore)
    (key : Int) (hlen : s.bins.length = 0) (h0 : s.count = 0) :
    addPrepWith growL growR s key
      = { s with bins := List.replicate s.initialChunkSize.toNat 0, maxKey := key,
                 minKey := key - (List.replicate s.initialChunkSize.toNat 0).length + 1 } := by
  unfold addPrepWith
  rw [if_pos hlen]
  dsimp only
  rw [if_pos h0]

theorem addPrep_nonempty_zero (growL growR : DenseStore → Int → DenseStore) (s : DenseStore)
    (key : Int) (hlen : s.bins.length ≠ 0) (h0 : s.count = 0) :
    addPrepWith growL growR s key
      = { s with maxKey := key, minKey := key - s.bins.length + 1 } := by
  unfold addPrepWith
  rw [if_neg hlen]
  dsimp only
  rw [if_pos h0]

theorem addPrep_growLeft (growL growR : DenseStore → Int → DenseStore) (s : DenseStore)
    (key : Int) (hlen : s.bins.length ≠ 0) (h0 : s.count ≠ 0) (hk : key < s.minKey) :
    addPrepWith growL growR s key = growL s key := by
  unfold addPrepWith
  rw [if_neg hlen]
  dsimp only
  rw [if_neg h0, if_pos hk]

theorem addPrep_growRight (growL growR : DenseStore → Int → DenseStore) (s : DenseStore)
    (key : Int) (hlen : s.bins.length ≠ 0) (h0 : s.count ≠ 0) (hk1 : ¬key < s.minKey)
    (hk2 : key > s.maxKey) :
    addPrepWith growL growR s key = growR s key := by
  unfold addPrepWith
  rw [if_neg hlen]
  dsimp only
  rw [if_neg h0, if_neg hk1, if_pos hk2]

theorem addPrep_inRange (growL growR : DenseStore → Int → DenseStore) (s : DenseStore)
    (key : Int) (hlen : s.bins.length ≠ 0) (h0 : s.count ≠ 0) (hk1 : ¬key < s.minKey)
    (hk2 : ¬key > s.maxKey) :
    addPrepWith growL growR s key = s := by
  unfold addPrepWith
  rw [if_neg hlen]
  dsimp only
  rw [if_neg h0, if_neg hk1, if_neg hk2]

/-! ### The prepared state before the bin increment of add -/

theorem dense_addPrep_spec (s : DenseStore) (key : Int) (h : DenseInv s) :
    (addPrepWith DenseStore.growLeft DenseStore.growRight s key).chunkSize = s.chunkSize ∧
    (addPrepWith DenseStore.growLeft DenseStore.growRight s key).initialChunkSize
      = s.initialChunkSize ∧
    (addPrepWith DenseStore.growLeft DenseStore.growRight s key).count = s.count ∧
    (addPrepWith DenseStore.growLeft DenseStore.growRight s key).bins.sum = s.bins.sum ∧
    (addPrepWith DenseStore.growLeft DenseStore.growRight s key).minKey
      ≤ (addPrepWith DenseStore.growLeft DenseStore.growRight s key).maxKey ∧
    ((addPrepWith DenseStore.growLeft DenseStore.growRight s key).bins.length : Int)
      = (addPrepWith DenseStore.growLeft DenseStore.growRight s key).maxKey
        - (addPrepWith DenseStore.growLeft DenseStore.growRight s key).minKey + 1 ∧
    max 0 (key - (addPrepWith DenseStore.growLeft DenseStore.growRight s key).minKey)
      < ((addPrepWith DenseStore.growLeft DenseStore.growRight s key).bins.length : Int) := by
  obtain ⟨hc, hics, hcnt, hwind⟩ := h
  by_cases h0 : s.count = 0
  · by_cases hlen : s.bins.length = 0
    · rw [addPrep_empty_zero _ _ s key hlen h0]
      have hnil : s.bins = [] := List.length_eq_zero.mp hlen
      refine ⟨rfl, rfl, rfl, ?_, ?_, ?_, ?_⟩
      · dsimp only
        rw [hnil, sum_replicate_zero]
        rfl
      · dsimp only
        rw [List.length_replicate]
        omega
      · dsimp only
        rw [List.length_replicate]
        omega
      · dsimp only
        rw [List.length_replicate]
        omega
    · rw [addPrep_nonempty_zero _ _ s key hlen h0]
      refine ⟨rfl, rfl, rfl, rfl, ?_, ?_, ?_⟩
      · dsimp only
        omega
      · dsimp only
        omega
      · dsimp only
        omega
  · obtain ⟨hw1, hw2⟩ := hwind h0
    have hlen : s.bins.length ≠ 0 := by omega
    by_cases hk1 : key < s.minKey
    · rw [addPrep_growLeft _ _ s key hlen h0 hk1]
      obtain ⟨g1, g2, g3, g4, g5, g6, g7, g8⟩ := DenseStore.growLeft_spec s key hc (by omega)
      exact ⟨g5, g6, g4, g7, by omega, by omega, by omega⟩
    · by_cases hk2 : key > s.maxKey
      · rw [addPrep_growRight _ _ s key hlen h0 hk1 hk2]
        obtain ⟨g1, g2, g3, g4, g5, g6, g7, g8⟩ := DenseStore.growRight_spec s key hc (by omega)
        exact ⟨g5, g6, g4, g7, by omega, by omega, by omega⟩
      · rw [addPrep_inRange _ _ s key hlen h0 hk1 hk2]
        exact ⟨rfl, rfl, rfl, rfl, hw1, hw2, by omega⟩

theorem coll_addPrep_spec (m : Int) (s : DenseStore) (key : Int) (hm : 1 ≤ m)
    (h : DenseInv s) :
    (addPrepWith (collGrowLeft m) (collGrowRight m) s key).chunkSize = s.chunkSize ∧
    (addPrepWith (collGrowLeft m) (collGrowRight m) s key).initialChunkSize
      = s.initialChunkSize ∧
    (addPrepWith (collGrowLeft m) (collGrowRight m) s key).count = s.count ∧
    (addPrepWith (collGrowLeft m) (collGrowRight m) s key).bins.sum = s.bins.sum ∧
    (addPrepWith (collGrowLeft m) (collGrowRight m) s key).minKey
      ≤ (addPrepWith (collGrowLeft m) (collGrowRight m) s key).maxKey ∧
    ((addPrepWith (collGrowLeft m) (collGrowRight m) s key).bins.length : Int)
      = (addPrepWith (collGrowLeft m) (collGrowRight m) s key).maxKey
        - (addPrepWith (collGrowLeft m) (collGrowRight m) s key).minKey + 1 ∧
    max 0 (key - (addPrepWith (collGrowLeft m) (collGrowRight m) s key).minKey)
      < ((addPrepWith (collGrowLeft m) (collGrowRight m) s key).bins.length : Int) := by
  obtain ⟨hc, hics, hcnt, hwind⟩ := h
  by_cases h0 : s.count = 0
  · by_cases hlen : s.bins.length = 0
    · rw [addPrep_empty_zero _ _ s key hlen h0]
      have hnil : s.bins = [] := List.length_eq_zero.mp hlen
      refine ⟨rfl, rfl, rfl, ?_, ?_, ?_, ?_⟩
      · dsimp only
        rw [hnil, sum_replicate_zero]
        rfl
      · dsimp only
        rw [List.length_replicate]
        omega
      · dsimp only
        rw [List.length_replicate]
        omega
      · dsimp only
        rw [List.length_replicate]
        omega
    · rw [addPrep_nonempty_zero _ _ s key hlen h0]
      refine ⟨rfl, rfl, rfl, rfl, ?_, ?_, ?_⟩
      · dsimp only
        omega
      · dsimp only
        omega
      · dsimp only
        omega
  · obtain ⟨hw1, hw2⟩ := hwind h0
    have hlen : s.bins.length ≠ 0 := by omega
    by_cases hk1 : key < s.minKey
    · rw [addPrep_growLeft _ _ s key hlen h0 hk1]
      obtain ⟨g1, g2, g3, g4, g5, g6, g7⟩ :=
        collGrowLeft_spec m s key hm hc (by omega) hw1 hw2
      exact ⟨g4, g5, g3, g6, by omega, by omega, by omega⟩
    · by_cases hk2 : key > s.maxKey
      · rw [addPrep_growRight _ _ s key hlen h0 hk1 hk2]
        obtain ⟨g1, g2, g3, g4, g5, g6, g7⟩ :=
          collGrowRight_spec m s key hm hc (by omega) hw1 hw2 hcnt
        exact ⟨g4, g5, g3, g6, by omega, by omega, by omega⟩
      · rw [addPrep_inRange _ _ s key hlen h0 hk1 hk2]
        exact ⟨rfl, rfl, rfl, rfl, hw1, hw2, by omega⟩

/-! ### Invariant preservation by add -/

theorem addWith_inv (growL growR : DenseStore → Int → DenseStore) (s : DenseStore) (key : Int)
    (h : DenseInv s)
    (hspec :
      (addPrepWith growL growR s key).chunkSize = s.chunkSize ∧
      (addPrepWith growL growR s key).initialChunkSize = s.initialChunkSize ∧
      (addPrepWith growL growR s key).count = s.count ∧
      (addPrepWith growL growR s key).bins.sum = s.bins.sum ∧
      (addPrepWith growL growR s key).minKey ≤ (addPrepWith growL growR s key).maxKey ∧
      ((addPrepWith growL growR s key).bins.length : Int)
        = (addPrepWith growL growR s key).maxKey
          - (addPrepWith growL growR s key).minKey + 1 ∧
      max 0 (key - (addPrepWith growL growR s key).minKey)
        < ((addPrepWith growL growR s key).bins.length : Int)) :
    DenseInv (addWith growL growR s key) ∧ addOKWith growL growR s key = true ∧
      (addWith growL growR s key).count = s.count + 1 := by
  obtain ⟨hc, hics, hcnt, hwind⟩ := h
  obtain ⟨t1, t2, t3, t4, t5, t6, t7⟩ := hspec
  have hidx0 : (0 : Int) ≤ max 0 (key - (addPrepWith growL growR s key).minKey) :=
    le_max_left _ _
  have hOK : idxOK (addPrepWith growL growR s key).bins.length
      (max 0 (key - (addPrepWith growL growR s key).minKey)) = true := by
    rw [idxOK_iff, pyIdx_of_nonneg _ _ hidx0]
    exact ⟨hidx0, by omega⟩
  refine ⟨?_, ?_, ?_⟩
  · unfold addWith
    dsimp only
    refine ⟨by rw [t1]; exact hc, by rw [t2]; exact hics, ?_, ?_⟩
    · rw [sum_pyAddAt _ _ _ hOK, t3, t4, hcnt]
    · intro _
      rw [length_pyAddAt]
      exact ⟨t5, t6⟩
  · unfold addOKWith
    exact hOK
  · unfold addWith
    dsimp only
    omega

theorem dense_add_inv (s : DenseStore) (key : Int) (h : DenseInv s) :
    DenseInv (s.add key) ∧ s.addOK key = true ∧ (s.add key).count = s.count + 1 :=
  addWith_inv DenseStore.growLeft DenseStore.growRight s key h (dense_addPrep_spec s key h)

theorem coll_add_inv (s : CollapsingLowestDenseStore) (key : Int) (h : CollInv s) :
    CollInv (s.add key) ∧ s.addOK key = true ∧ (s.add key).count = s.count + 1 := by
  obtain ⟨hm, hd⟩ := h
  have hbase := addWith_inv (collGrowLeft s.maxBins) (collGrowRight s.maxBins)
    s.toDenseStore key hd (coll_addPrep_spec s.maxBins s.toDenseStore key hm hd)
  exact ⟨⟨hm, hbase.1⟩, hbase.2.1, hbase.2.2⟩

/-! ### Invariant preservation by merge -/

theorem sumRangeAux_zero (b : List Nat) (bMin : Int) (i : Int) :
    sumRangeAux b bMin 0 i = 0 := rfl

theorem mergeBodyWith_inv (growL growR : DenseStore → Int → DenseStore) (s o : DenseStore)
    (hs : DenseInv s) (ho : DenseInv o) (hs0 : s.count ≠ 0) (ho0 : o.count ≠ 0)
    (hOK : mergeBodyOKWith growL growR s o = true)
    (hL : o.maxKey < s.maxKey → o.minKey < s.minKey → PreservesStats s (growL s o.minKey))
    (hR : ¬o.maxKey < s.maxKey → ¬o.minKey < s.minKey → PreservesStats s (growR s o.maxKey)) :
    DenseInv (mergeBodyWith growL growR s o) ∧
      (mergeBodyWith growL growR s o).count = s.count + o.count := by
  obtain ⟨hsc, hsi, hscnt, hswind⟩ := hs
  obtain ⟨hoc, hoi, hocnt, howind⟩ := ho
  obtain ⟨hs1w, hs2w⟩ := hswind hs0
  obtain ⟨ho1w, ho2w⟩ := howind ho0
  by_cases hb1 : o.maxKey < s.maxKey
  · -- self covers the other store on the right
    have hps : PreservesStats s (if o.minKey < s.minKey then growL s o.minKey else s) := by
      by_cases h : o.minKey < s.minKey
      · rw [if_pos h]
        exact hL hb1 h
      · rw [if_neg h]
        exact ⟨rfl, rfl, rfl, rfl, hs1w, hs2w⟩
    unfold mergeBodyWith
    unfold mergeBodyOKWith at hOK
    rw [if_pos hb1] at hOK ⊢
    dsimp only at hOK ⊢
    set s1 := if o.minKey < s.minKey then growL s o.minKey else s with hs1def
    obtain ⟨p1, p2, p3, p4, p5, p6⟩ := hps
    rw [Bool.and_eq_true] at hOK
    obtain ⟨hrOK, hfOK⟩ := hOK
    have hrange := rangeOK_elim _ _ _ _ _ _ hrOK
    have hlen2 : (mergeRange s1.bins o.bins s1.minKey o.minKey (max s1.minKey o.minKey)
        o.maxKey).length = s1.bins.length := mergeRange_length _ _ _ _ _ _
    have hsum2 : (mergeRange s1.bins o.bins s1.minKey o.minKey (max s1.minKey o.minKey)
        o.maxKey).sum = s1.bins.sum
          + sumRangeAux o.bins o.minKey (o.maxKey + 1 - max s1.minKey o.minKey).toNat
            (max s1.minKey o.minKey) := by
      apply mergeRange_sum
      intro i hlo hhi
      exact (hrange i hlo hhi).1
    by_cases hfold : o.minKey < s1.minKey
    · rw [if_pos hfold]
      rw [max_eq_left (le_of_lt hfold)] at hsum2 hlen2 ⊢
      rw [if_pos hfold] at hfOK
      have hfOK2 : idxOK (mergeRange s1.bins o.bins s1.minKey o.minKey s1.minKey
          o.maxKey).length 0 = true := by
        rw [mergeRange_length]
        exact hfOK
      have hsum3 : (pyAddAt (mergeRange s1.bins o.bins s1.minKey o.minKey s1.minKey o.maxKey)
          0 ((o.bins.take (s1.minKey - o.minKey).toNat).sum)).sum
          = (mergeRange s1.bins o.bins s1.minKey o.minKey s1.minKey o.maxKey).sum
            + (o.bins.take (s1.minKey - o.minKey).toNat).sum :=
        sum_pyAddAt _ _ _ hfOK2
    -- total incoming mass equals the other store's total mass
      have hmass : sumRangeAux o.bins o.minKey (o.maxKey + 1 - s1.minKey).toNat s1.minKey
          + (o.bins.take (s1.minKey - o.minKey).toNat).sum = o.bins.sum := by
        by_cases hle : s1.minKey ≤ o.maxKey
        · rw [sumRangeAux_eq_sum_drop o.bins o.minKey _ s1.minKey (by omega) (by omega)]
          have := sum_take_add_drop o.bins (s1.minKey - o.minKey).toNat
          omega
        · have hfuel : (o.maxKey + 1 - s1.minKey).toNat = 0 := by omega
          rw [hfuel, sumRangeAux_zero]
          rw [take_of_length_le o.bins _ (by omega)]
          omega
      refine ⟨⟨?_, ?_, ?_, ?_⟩, ?_⟩
      · dsimp only
        rw [p3]
        exact hsc
      · dsimp only
        rw [p4]
        exact hsi
      · dsimp only
        rw [hsum3, hsum2]
        omega
      · intro _
        dsimp only
        rw [length_pyAddAt, hlen2]
        exact ⟨p5, p6⟩
      · dsimp only
        omega
    · rw [if_neg hfold]
      rw [max_eq_right (by omega)] at hsum2 hlen2 ⊢
      have hmass : sumRangeAux o.bins o.minKey (o.maxKey + 1 - o.minKey).toNat o.minKey
          = o.bins.sum :=
        sumRangeAux_eq_sum o.bins o.minKey _ (by omega)
      refine ⟨⟨?_, ?_, ?_, ?_⟩, ?_⟩
      · dsimp only
        rw [p3]
        exact hsc
      · dsimp only
        rw [p4]
        exact hsi
      · dsimp only
        rw [hsum2, hmass]
        omega
      · intro _
        dsimp only
        rw [hlen2]
        exact ⟨p5, p6⟩
      · dsimp only
        omega
  · by_cases hb2 : o.minKey < s.minKey
    · -- seed from the other store's bins (tmp path)
      unfold mergeBodyWith
      unfold mergeBodyOKWith at hOK
      rw [if_neg hb1] at hOK ⊢
      rw [if_pos hb2] at hOK ⊢
      dsimp only at hOK ⊢
      have hrange := rangeOK_elim _ _ _ _ _ _ hOK
      have hlen2 : (mergeRange o.bins s.bins o.minKey s.minKey s.minKey s.maxKey).length
          = o.bins.length := mergeRange_length _ _ _ _ _ _
      have hsum2 : (mergeRange o.bins s.bins o.minKey s.minKey s.minKey s.maxKey).sum
          = o.bins.sum + sumRangeAux s.bins s.minKey (s.maxKey + 1 - s.minKey).toNat
            s.minKey := by
        apply mergeRange_sum
        intro i hlo hhi
        exact (hrange i hlo hhi).1
      have hmass : sumRangeAux s.bins s.minKey (s.maxKey + 1 - s.minKey).toNat s.minKey
          = s.bins.sum :=
        sumRangeAux_eq_sum s.bins s.minKey _ (by omega)
      refine ⟨⟨hsc, hsi, ?_, ?_⟩, ?_⟩
      · dsimp only
        rw [hsum2, hmass]
        omega
      · intro _
        dsimp only
        rw [hlen2]
        exact ⟨by omega, by omega⟩
      · rfl
    · -- grow right then fold the other store in
      have hps : PreservesStats s (growR s o.maxKey) := hR hb1 hb2
      unfold mergeBodyWith
      unfold mergeBodyOKWith at hOK
      rw [if_neg hb1] at hOK ⊢
      rw [if_neg hb2] at hOK ⊢
      dsimp only at hOK ⊢
      set s1 := growR s o.maxKey with hs1def
      obtain ⟨p1, p2, p3, p4, p5, p6⟩ := hps
      have hrange := rangeOK_elim _ _ _ _ _ _ hOK
      have hlen2 : (mergeRange s1.bins o.bins s1.minKey o.minKey o.minKey o.maxKey).length
          = s1.bins.length := mergeRange_length _ _ _ _ _ _
      have hsum2 : (mergeRange s1.bins o.bins s1.minKey o.minKey o.minKey o.maxKey).sum
          = s1.bins.sum + sumRangeAux o.bins o.minKey (o.maxKey + 1 - o.minKey).toNat
            o.minKey := by
        apply mergeRange_sum
        intro i hlo hhi
        exact (hrange i hlo hhi).1
      have hmass : sumRangeAux o.bins o.minKey (o.maxKey + 1 - o.minKey).toNat o.minKey
          = o.bins.sum :=
        sumRangeAux_eq_sum o.bins o.minKey _ (by omega)
      refine ⟨⟨?_, ?_, ?_, ?_⟩, ?_⟩
      · dsimp only
        rw [p3]
        exact hsc
      · dsimp only
        rw [p4]
        exact hsi
      · dsimp only
        rw [hsum2, hmass]
        omega
      · intro _
        dsimp only
        rw [hlen2]
        exact ⟨p5, p6⟩
      · dsimp only
        omega

theorem dense_merge_inv (s o : DenseStore) (hs : DenseInv s) (ho : DenseInv o)
    (hOK : s.mergeOK o = true) :
    DenseInv (s.merge o) ∧ (s.merge o).count = s.count + o.count := by
  unfold DenseStore.merge
  unfold DenseStore.mergeOK at hOK
  by_cases ho0 : o.count = 0
  · rw [if_pos ho0]
    exact ⟨hs, by omega⟩
  · rw [if_neg ho0] at hOK ⊢
    by_cases hs0 : s.count = 0
    · rw [if_pos hs0]
      obtain ⟨hoc, hoi, hocnt, howind⟩ := ho
      obtain ⟨hsc, hsi, hscnt, hswind⟩ := hs
      refine ⟨⟨hsc, hsi, hocnt, fun h => ?_⟩, by dsimp only [DenseStore.copyFrom]; omega⟩
      exact howind (by simpa [DenseStore.copyFrom] using h)
    · rw [if_neg hs0] at hOK ⊢
      refine mergeBodyWith_inv _ _ s o hs ho hs0 ho0 hOK ?_ ?_
      · intro hb1 hb2
        obtain ⟨hsc, hsi, hscnt, hswind⟩ := hs
        obtain ⟨hoc, hoi, hocnt, howind⟩ := ho
        obtain ⟨hs1w, hs2w⟩ := hswind hs0
        obtain ⟨ho1w, ho2w⟩ := howind ho0
        obtain ⟨g1, g2, g3, g4, g5, g6, g7, g8⟩ :=
          DenseStore.growLeft_spec s o.minKey hsc (by omega)
        exact ⟨g4, g7, g5, g6, by omega, by omega⟩
      · intro hb1 hb2
        obtain ⟨hsc, hsi, hscnt, hswind⟩ := hs
        obtain ⟨hoc, hoi, hocnt, howind⟩ := ho
        obtain ⟨hs1w, hs2w⟩ := hswind hs0
        obtain ⟨ho1w, ho2w⟩ := howind ho0
        obtain ⟨g1, g2, g3, g4, g5, g6, g7, g8⟩ :=
          DenseStore.growRight_spec s o.maxKey hsc (by omega)
        exact ⟨g4, g7, g5, g6, by omega, by omega⟩

theorem coll_merge_inv (s o : CollapsingLowestDenseStore) (hs : CollInv s) (ho : CollInv o)
    (hOK : s.mergeOK o = true) :
    CollInv (s.merge o) ∧ (s.merge o).count = s.count + o.count := by
  obtain ⟨hsm, hsd⟩ := hs
  obtain ⟨hom, hod⟩ := ho
  unfold CollapsingLowestDenseStore.merge
  unfold CollapsingLowestDenseStore.mergeOK at hOK
  by_cases ho0 : o.count = 0
  · rw [if_pos ho0]
    exact ⟨⟨hsm, hsd⟩, by omega⟩
  · rw [if_neg ho0] at hOK ⊢
    by_cases hs0 : s.count = 0
    · rw [if_pos hs0]
      obtain ⟨hoc, hoi, hocnt, howind⟩ := hod
      obtain ⟨hsc, hsi, hscnt, hswind⟩ := hsd
      refine ⟨⟨hom, hsc, hsi, hocnt, fun h => ?_⟩, ?_⟩
      · exact howind (by
          simpa [CollapsingLowestDenseStore.copyFrom, DenseStore.copyFrom] using h)
      · dsimp only [CollapsingLowestDenseStore.copyFrom, DenseStore.copyFrom]
        omega
    · rw [if_neg hs0] at hOK ⊢
      have hbase := mergeBodyWith_inv (collGrowLeft s.maxBins) (collGrowRight s.maxBins)
        s.toDenseStore o.toDenseStore hsd hod hs0 ho0 hOK ?_ ?_
      · exact ⟨⟨hsm, hbase.1⟩, hbase.2⟩
      · intro hb1 hb2
        obtain ⟨hsc, hsi, hscnt, hswind⟩ := hsd
        obtain ⟨hoc, hoi, hocnt, howind⟩ := hod
        obtain ⟨hs1w, hs2w⟩ := hswind hs0
        obtain ⟨ho1w, ho2w⟩ := howind ho0
        obtain ⟨g1, g2, g3, g4, g5, g6, g7⟩ :=
          collGrowLeft_spec s.maxBins s.toDenseStore o.minKey hsm hsc (by omega) hs1w hs2w
        exact ⟨g3, g6, g4, g5, by omega, by omega⟩
      · intro hb1 hb2
        obtain ⟨hsc, hsi, hscnt, hswind⟩ := hsd
        obtain ⟨hoc, hoi, hocnt, howind⟩ := hod
        obtain ⟨hs1w, hs2w⟩ := hswind hs0
        obtain ⟨ho1w, ho2w⟩ := howind ho0
        obtain ⟨g1, g2, g3, g4, g5, g6, g7⟩ :=
          collGrowRight_spec s.maxBins s.toDenseStore o.maxKey hsm hsc (by omega) hs1w
            hs2w hscnt
        exact ⟨g3, g6, g4, g5, by omega, by omega⟩

/-! ### Reachable states satisfy the invariant -/

theorem dense_init_inv (initial_nbins chunk_size : Int) (hc : 1 ≤ chunk_size) :
    DenseInv (DenseStore.init initial_nbins chunk_size) := by
  refine ⟨hc, hc, ?_, fun h => absurd rfl h⟩
  dsimp only [DenseStore.init]
  rw [sum_replicate_zero]

theorem coll_init_inv (max_bins initial_nbins chunk_size : Int) (hm : 1 ≤ max_bins)
    (hc : 1 ≤ chunk_size) :
    CollInv (CollapsingLowestDenseStore.init max_bins initial_nbins chunk_size) := by
  refine ⟨hm, ⟨?_, ?_, ?_, fun h => absurd rfl h⟩⟩
  · dsimp only [CollapsingLowestDenseStore.init, CHUNK_SIZE]
    omega
  · dsimp only [CollapsingLowestDenseStore.init]
    omega
  · dsimp only [CollapsingLowestDenseStore.init]
    rw [sum_replicate_zero]

theorem dense_reachable_inv (s : DenseStore) (h : DenseReachable s) : DenseInv s := by
  induction h with
  | init n c hc => exact dense_init_inv n c hc
  | add s key hs ih => exact (dense_add_inv s key ih).1
  | merge s o hs ho hOK ihs iho => exact (dense_merge_inv s o ihs iho hOK).1

theorem coll_reachable_inv (s : CollapsingLowestDenseStore) (h : CollReachable s) :
    CollInv s := by
  induction h with
  | init m n c hm hc => exact coll_init_inv m n c hm hc
  | add s key hs ih => exact (coll_add_inv s key ih).1
  | merge s o hs ho hOK ihs iho => exact (coll_merge_inv s o ihs iho hOK).1

/-! ### Facts about key_at_rank -/

theorem keyAtRankGo_overflow (minKey maxKey rank : Int) :
    ∀ (l : List Nat) (i : Int) (running : Nat),
      ((running : Int) + l.sum < rank) →
      keyAtRankGo minKey maxKey rank l i running = maxKey := by
  intro l
  induction l with
  | nil => intro i running _; rfl
  | cons b rest ih =>
    intro i running h
    rw [keyAtRankGo]
    rw [List.sum_cons] at h
    rw [if_neg (by omega)]
    exact ih (i + 1) (running + b) (by omega)

theorem keyAtRankGo_found (minKey maxKey rank : Int) :
    ∀ (l : List Nat) (i : Int) (running : Nat),
      ((running : Int) < rank) → (rank ≤ (running : Int) + l.sum) →
      ∃ j : Nat, j < l.length ∧
        keyAtRankGo minKey maxKey rank l i running = minKey + i + j ∧
        rank ≤ (running : Int) + (l.take (j + 1)).sum ∧
        ∀ j' : Nat, j' < j → (running : Int) + (l.take (j' + 1)).sum < rank := by
  intro l
  induction l with
  | nil =>
    intro i running hlt h
    rw [List.sum_nil] at h
    omega
  | cons b rest ih =>
    intro i running hlt h
    rw [keyAtRankGo]
    by_cases hb : rank ≤ ((running + b : Nat) : Int)
    · refine ⟨0, by simp, ?_, ?_, ?_⟩
      · rw [if_pos hb]
        simp
      · rw [List.take_succ_cons, List.take_zero, List.sum_cons, List.sum_nil]
        omega
      · intro j' hj'
        omega
    · rw [if_neg hb]
      rw [List.sum_cons] at h
      obtain ⟨j, hj1, hj2, hj3, hj4⟩ := ih (i + 1) (running + b) (by omega) (by omega)
      refine ⟨j + 1, by simp; omega, ?_, ?_, ?_⟩
      · rw [hj2]
        push_cast
        ring
      · rw [List.take_succ_cons, List.sum_cons]
        omega
      · intro j' hj'
        cases j' with
        | zero =>
          rw [List.take_succ_cons, List.take_zero, List.sum_cons, List.sum_nil]
          omega
        | succ k =>
          rw [List.take_succ_cons, List.sum_cons]
          have := hj4 k (by omega)
          omega

theorem keyAtRank_found (s : DenseStore) (rank : Int) (hcnt : s.count = s.bins.sum)
    (h1 : 1 ≤ rank) (h2 : rank ≤ (s.count : Int)) :
    rank ≤ (cumLE s (s.keyAtRank rank) : Int) ∧
      ∀ k : Int, k < s.keyAtRank rank → ((cumLE s k : Int) < rank) := by
  rw [hcnt] at h2
  obtain ⟨j, hj1, hj2, hj3, hj4⟩ := keyAtRankGo_found s.minKey s.maxKey rank s.bins 0 0
    (by omega) (by omega)
  unfold DenseStore.keyAtRank
  rw [hj2]
  constructor
  · unfold cumLE
    have harg : (s.minKey + 0 + (j : Int) - s.minKey + 1).toNat = j + 1 := by omega
    rw [harg]
    omega
  · intro k hk
    unfold cumLE
    by_cases hkm : k < s.minKey
    · have harg : (k - s.minKey + 1).toNat = 0 := by omega
      rw [harg, List.take_zero, List.sum_nil]
      omega
    · have hj' : (k - s.minKey).toNat < j := by omega
      have harg : (k - s.minKey + 1).toNat = (k - s.minKey).toNat + 1 := by omega
      rw [harg]
      have := hj4 (k - s.minKey).toNat hj'
      omega

theorem keyAtRank_overflow (s : DenseStore) (rank : Int) (hcnt : s.count = s.bins.sum)
    (h : (s.count : Int) < rank) : s.keyAtRank rank = s.maxKey := by
  rw [hcnt] at h
  unfold DenseStore.keyAtRank
  exact keyAtRankGo_overflow s.minKey s.maxKey rank s.bins 0 0 (by omega)

/-! ### Pointwise description of the operations (dense variant) -/

theorem getD_pyAddAt_at (l : List Nat) (i : Int) (v : Nat) (j : Nat)
    (h : 0 ≤ i ∧ i < (l.length : Int)) :
    (pyAddAt l i v).getD j 0 = l.getD j 0 + (if (j : Int) = i then v else 0) := by
  by_cases hj : (j : Int) = i
  · have hj2 : j = i.toNat := by omega
    subst hj2
    rw [if_pos hj]
    exact getD_pyAddAt_eq l i v h
  · rw [if_neg hj, getD_pyAddAt_ne l i v j h.1 hj]
    omega

theorem mergeRangeAux_getD (b : List Nat) (aMin bMin : Int) :
    ∀ (n : Nat) (i : Int) (a : List Nat),
      (∀ k : Nat, k < n → 0 ≤ (i + k) - aMin ∧ (i + k) - aMin < (a.length : Int)) →
      ∀ j : Nat, (mergeRangeAux b aMin bMin n i a).getD j 0
        = a.getD j 0
          + (if i ≤ aMin + j ∧ aMin + j < i + n then pyGetD b ((aMin + j) - bMin) else 0) := by
  intro n
  induction n with
  | zero =>
    intro i a _ j
    rw [mergeRangeAux, if_neg (by omega)]
    omega
  | succ n ih =>
    intro i a h j
    rw [mergeRangeAux]
    have h0 := h 0 (by omega)
    simp only [Nat.cast_zero, add_zero] at h0
    have hlen : (pyAddAt a (i - aMin) (pyGetD b (i - bMin))).length = a.length :=
      length_pyAddAt _ _ _
    have hsh : ∀ k : Nat, k < n →
        0 ≤ (i + 1 + k) - aMin ∧
          (i + 1 + k) - aMin < ((pyAddAt a (i - aMin) (pyGetD b (i - bMin))).length : Int) := by
      intro k hk
      rw [hlen]
      have := h (k + 1) (by omega)
      constructor <;> omega
    rw [ih (i + 1) _ hsh j]
    rw [getD_pyAddAt_at a (i - aMin) (pyGetD b (i - bMin)) j h0]
    by_cases hpt : (j : Int) = i - aMin
    · rw [if_pos hpt, if_neg (by omega), if_pos (by omega)]
      have harg : (aMin + j) - bMin = i - bMin := by omega
      rw [harg]
      omega
    · rw [if_neg hpt]
      by_cases hin : i + 1 ≤ aMin + j ∧ aMin + j < i + 1 + n
      · rw [if_pos hin, if_pos (by omega)]
        omega
      · rw [if_neg hin, if_neg (by omega)]

theorem mergeRange_getD (a b : List Nat) (aMin bMin lo hi : Int)
    (hOK : ∀ i : Int, lo ≤ i → i ≤ hi → 0 ≤ i - aMin ∧ i - aMin < (a.length : Int)) :
    ∀ j : Nat, (mergeRange a b aMin bMin lo hi).getD j 0
      = a.getD j 0 + (if lo ≤ aMin + j ∧ aMin + j ≤ hi then pyGetD b ((aMin + j) - bMin) else 0) := by
  intro j
  unfold mergeRange
  rw [mergeRangeAux_getD b aMin bMin _ lo a ?_ j]
  · by_cases hle : lo ≤ hi
    · have harg : lo + ((hi + 1 - lo).toNat : Int) = hi + 1 := by omega
      by_cases hin : lo ≤ aMin + j ∧ aMin + j ≤ hi
      · rw [if_pos (by omega), if_pos hin]
      · rw [if_neg (by omega), if_neg hin]
    · have harg : (hi + 1 - lo).toNat = 0 := by omega
      rw [if_neg (by omega), if_neg (by omega)]
  · intro k hk
    exact hOK (lo + k) (by omega) (by omega)

theorem getD_eq_zero_of_sum_zero (l : List Nat) (h : l.sum = 0) (j : Nat) :
    l.getD j 0 = 0 := by
  induction l generalizing j with
  | nil => simp
  | cons a t ih =>
    rw [List.sum_cons] at h
    cases j with
    | zero => simp; omega
    | succ j => simpa using ih (by omega) j

theorem binAt_zero_of_sum_zero (s : DenseStore) (h : s.bins.sum = 0) (k : Int) :
    binAt s k = 0 := by
  unfold binAt
  split
  · exact getD_eq_zero_of_sum_zero s.bins h _
  · rfl

theorem binAt_growLeft (s : DenseStore) (key k : Int) (hc : 1 ≤ s.chunkSize) :
    binAt (s.growLeft key) k = binAt s k := by
  unfold DenseStore.growLeft
  split
  · rfl
  · rename_i hguard
    have hg0 : s.minKey - key ≤ growBy s.chunkSize (s.minKey - key) :=
      le_growBy s.chunkSize (s.minKey - key) hc
    have hgnn : 0 ≤ growBy s.chunkSize (s.minKey - key) := by omega
    unfold binAt
    dsimp only
    by_cases h1 : s.minKey ≤ k ∧ k ≤ s.maxKey
    · rw [if_pos h1, if_pos (by omega)]
      have hlrep : (List.replicate (s.minKey
          - (s.minKey - growBy s.chunkSize (s.minKey - key))).toNat (0 : Nat)).length
          = (growBy s.chunkSize (s.minKey - key)).toNat := by
        rw [List.length_replicate]
        omega
      rw [getD_append_right _ _ _ (by rw [hlrep]; omega)]
      rw [hlrep]
      have harg : (k - (s.minKey - growBy s.chunkSize (s.minKey - key))).toNat
          - (growBy s.chunkSize (s.minKey - key)).toNat = (k - s.minKey).toNat := by omega
      rw [harg]
    · rw [if_neg h1]
      by_cases h2 : s.minKey - growBy s.chunkSize (s.minKey - key) ≤ k ∧ k ≤ s.maxKey
      · rw [if_pos h2]
        rw [getD_append_left _ _ _ (by rw [List.length_replicate]; omega)]
        rw [getD_replicate_zero]
      · rw [if_neg h2]

theorem binAt_growRight (s : DenseStore) (key k : Int) (hc : 1 ≤ s.chunkSize)
    (hwin : (s.bins.length : Int) = s.maxKey - s.minKey + 1) :
    binAt (s.growRight key) k = binAt s k := by
  unfold DenseStore.growRight
  split
  · rfl
  · rename_i hguard
    have hg0 : key - s.maxKey ≤ growBy s.chunkSize (key - s.maxKey) :=
      le_growBy s.chunkSize (key - s.maxKey) hc
    have hgnn : 0 ≤ growBy s.chunkSize (key - s.maxKey) := by omega
    unfold binAt
    dsimp only
    by_cases h1 : s.minKey ≤ k ∧ k ≤ s.maxKey
    · rw [if_pos h1, if_pos (by omega)]
      rw [getD_append_left _ _ _ (by omega)]
    · rw [if_neg h1]
      by_cases h2 : s.minKey ≤ k ∧ k ≤ s.maxKey + growBy s.chunkSize (key - s.maxKey)
      · rw [if_pos h2]
        rw [getD_append_right _ _ _ (by omega)]
        rw [getD_replicate_zero]
      · rw [if_neg h2]

theorem binAt_increment (t : DenseStore) (key k : Int) (hmin : t.minKey ≤ key)
    (hmax : key ≤ t.maxKey) (hlen : key - t.minKey < (t.bins.length : Int)) :
    binAt { t with bins := pyAddAt t.bins (max 0 (key - t.minKey)) 1, count := t.count + 1 } k
      = binAt t k + (if k = key then 1 else 0) := by
  have hmx : max 0 (key - t.minKey) = key - t.minKey := by omega
  unfold binAt
  dsimp only
  rw [hmx]
  by_cases h1 : t.minKey ≤ k ∧ k ≤ t.maxKey
  · rw [if_pos h1]
    rw [getD_pyAddAt_at t.bins (key - t.minKey) 1 (k - t.minKey).toNat (by omega)]
    rw [if_pos h1]
    by_cases hk : k = key
    · rw [if_pos (by omega), if_pos hk]
    · rw [if_neg (by omega), if_neg hk]
  · rw [if_neg h1, if_neg (by omega)]
    rw [if_neg (show ¬k = key by omega)]

theorem binAt_merged (nb cs ics : Int) (c : Nat) (s1 o : DenseStore)
    (hwin1 : (s1.bins.length : Int) = s1.maxKey - s1.minKey + 1)
    (hwino : (o.bins.length : Int) = o.maxKey - o.minKey + 1)
    (ho1 : o.minKey ≤ o.maxKey) (hs1o : s1.minKey ≤ o.minKey) (hoM : o.maxKey ≤ s1.maxKey)
    (k : Int) :
    binAt { initialNbins := nb, chunkSize := cs, initialChunkSize := ics, count := c,
            minKey := s1.minKey, maxKey := s1.maxKey,
            bins := mergeRange s1.bins o.bins s1.minKey o.minKey o.minKey o.maxKey } k
      = binAt s1 k + binAt o k := by
  have hOK : ∀ i : Int, o.minKey ≤ i → i ≤ o.maxKey →
      0 ≤ i - s1.minKey ∧ i - s1.minKey < (s1.bins.length : Int) := by
    intro i h1 h2
    omega
  unfold binAt
  dsimp only
  by_cases hk1 : s1.minKey ≤ k ∧ k ≤ s1.maxKey
  · rw [if_pos hk1, if_pos hk1]
    rw [mergeRange_getD s1.bins o.bins s1.minKey o.minKey o.minKey o.maxKey hOK
      (k - s1.minKey).toNat]
    have hj : s1.minKey + (((k - s1.minKey).toNat : Nat) : Int) = k := by omega
    rw [hj]
    by_cases hk2 : o.minKey ≤ k ∧ k ≤ o.maxKey
    · rw [if_pos hk2, if_pos hk2, pyGetD_of_nonneg _ _ (by omega)]
    · rw [if_neg hk2, if_neg hk2]
  · rw [if_neg hk1, if_neg hk1, if_neg (show ¬(o.minKey ≤ k ∧ k ≤ o.maxKey) by omega)]

theorem dense_addPrep_binAt (s : DenseStore) (key : Int) (h : DenseInv s) :
    (addPrepWith DenseStore.growLeft DenseStore.growRight s key).minKey ≤ key ∧
    key ≤ (addPrepWith DenseStore.growLeft DenseStore.growRight s key).maxKey ∧
    ∀ k : Int, binAt (addPrepWith DenseStore.growLeft DenseStore.growRight s key) k
      = binAt s k := by
  obtain ⟨hc, hics, hcnt, hwind⟩ := h
  by_cases h0 : s.count = 0
  · have hsum0 : s.bins.sum = 0 := by omega
    by_cases hlen : s.bins.length = 0
    · rw [addPrep_empty_zero _ _ s key hlen h0]
      refine ⟨?_, ?_, ?_⟩
      · dsimp only
        rw [List.length_replicate]
        omega
      · dsimp only
        omega
      · intro k
        rw [binAt_zero_of_sum_zero _ (by dsimp only; exact sum_replicate_zero _) k,
          binAt_zero_of_sum_zero s hsum0 k]
    · rw [addPrep_nonempty_zero _ _ s key hlen h0]
      refine ⟨by dsimp only; omega, by dsimp only; omega, ?_⟩
      intro k
      rw [binAt_zero_of_sum_zero _ (by dsimp only; exact hsum0) k,
        binAt_zero_of_sum_zero s hsum0 k]
  · obtain ⟨hw1, hw2⟩ := hwind h0
    have hlen : s.bins.length ≠ 0 := by omega
    by_cases hk1 : key < s.minKey
    · rw [addPrep_growLeft _ _ s key hlen h0 hk1]
      obtain ⟨g1, g2, g3, g4, g5, g6, g7, g8⟩ := DenseStore.growLeft_spec s key hc (by omega)
      exact ⟨g1, by omega, fun k => binAt_growLeft s key k hc⟩
    · by_cases hk2 : key > s.maxKey
      · rw [addPrep_growRight _ _ s key hlen h0 hk1 hk2]
        obtain ⟨g1, g2, g3, g4, g5, g6, g7, g8⟩ := DenseStore.growRight_spec s key hc (by omega)
        exact ⟨by omega, g1, fun k => binAt_growRight s key k hc hw2⟩
      · rw [addPrep_inRange _ _ s key hlen h0 hk1 hk2]
        exact ⟨by omega, by omega, fun k => rfl⟩

theorem binAt_dense_add (s : DenseStore) (key k : Int) (h : DenseInv s) :
    binAt (s.add key) k = binAt s k + (if k = key then 1 else 0) := by
  obtain ⟨q1, q2, q3, q4, q5, q6, q7⟩ := dense_addPrep_spec s key h
  obtain ⟨w1, w2, w3⟩ := dense_addPrep_binAt s key h
  unfold DenseStore.add addWith
  dsimp only
  rw [binAt_increment _ key k w1 w2 (by omega), w3 k]

theorem countOcc_cons (a : Int) (rest : List Int) (k : Int) :
    countOcc (a :: rest) k = (if k = a then 1 else 0) + countOcc rest k := by
  unfold countOcc
  rw [List.filter_cons]
  by_cases hak : a = k
  · rw [if_pos (by simpa using hak), if_pos (by omega)]
    rw [List.length_cons]
    omega
  · rw [if_neg (by simpa using hak), if_neg (by omega)]
    omega

theorem foldl_add_binAt : ∀ (keys : List Int) (s : DenseStore), DenseInv s →
    DenseInv (keys.foldl DenseStore.add s) ∧
    (keys.foldl DenseStore.add s).count = s.count + keys.length ∧
    ∀ k : Int, binAt (keys.foldl DenseStore.add s) k = binAt s k + countOcc keys k := by
  intro keys
  induction keys with
  | nil =>
    intro s hs
    refine ⟨hs, by simp, ?_⟩
    intro k
    simp [countOcc]
  | cons a rest ih =>
    intro s hs
    rw [List.foldl_cons]
    obtain ⟨ha1, ha2, ha3⟩ := dense_add_inv s a hs
    obtain ⟨ih1, ih2, ih3⟩ := ih (s.add a) ha1
    refine ⟨ih1, ?_, ?_⟩
    · rw [ih2, ha3, List.length_cons]
      omega
    · intro k
      rw [ih3 k, binAt_dense_add s a k hs, countOcc_cons a rest k]
      omega

theorem buildDense_spec (keys : List Int) :
    DenseInv (buildDense keys) ∧ (buildDense keys).count = keys.length ∧
    ∀ k : Int, binAt (buildDense keys) k = countOcc keys k := by
  have hinit : DenseInv (DenseStore.init INITIAL_NBINS CHUNK_SIZE) :=
    dense_init_inv _ _ (by norm_num [CHUNK_SIZE])
  obtain ⟨h1, h2, h3⟩ := foldl_add_binAt keys _ hinit
  unfold buildDense
  refine ⟨h1, by rw [h2]; dsimp only [DenseStore.init]; omega, ?_⟩
  intro k
  rw [h3 k, binAt_zero_of_sum_zero _ ?_ k]
  · omega
  · dsimp only [DenseStore.init]
    exact sum_replicate_zero _

theorem binAt_dense_merge (s o : DenseStore) (hs : DenseInv s) (ho : DenseInv o)
    (hs0 : s.count ≠ 0) (ho0 : o.count ≠ 0) :
    (s.merge o).count = s.count + o.count ∧
    ∀ k : Int, binAt (s.merge o) k = binAt s k + binAt o k := by
  obtain ⟨hsc, hsi, hscnt, hswind⟩ := hs
  obtain ⟨hoc, hoi, hocnt, howind⟩ := ho
  obtain ⟨hs1w, hs2w⟩ := hswind hs0
  obtain ⟨ho1w, ho2w⟩ := howind ho0
  unfold DenseStore.merge
  rw [if_neg ho0, if_neg hs0]
  unfold mergeBodyWith
  by_cases hb1 : o.maxKey < s.maxKey
  · rw [if_pos hb1]
    dsimp only
    set s1 := if o.minKey < s.minKey then DenseStore.growLeft s o.minKey else s with hs1def
    have hfacts : s1.minKey ≤ o.minKey ∧ s1.maxKey = s.maxKey ∧ s1.count = s.count ∧
        (s1.bins.length : Int) = s1.maxKey - s1.minKey + 1 ∧
        ∀ k : Int, binAt s1 k = binAt s k := by
      by_cases hgl : o.minKey < s.minKey
      · have h1 : s1 = DenseStore.growLeft s o.minKey := by rw [hs1def, if_pos hgl]
        obtain ⟨g1, g2, g3, g4, g5, g6, g7, g8⟩ :=
          DenseStore.growLeft_spec s o.minKey hsc (by omega)
        rw [h1]
        exact ⟨g1, g3, g4, by omega, fun k => binAt_growLeft s o.minKey k hsc⟩
      · have h1 : s1 = s := by rw [hs1def, if_neg hgl]
        rw [h1]
        exact ⟨by omega, rfl, rfl, hs2w, fun k => rfl⟩
    obtain ⟨f1, f2, f3, f4, f5⟩ := hfacts
    rw [max_eq_right f1]
    rw [if_neg (show ¬o.minKey < s1.minKey by omega)]
    dsimp only
    refine ⟨by omega, ?_⟩
    intro k
    rw [binAt_merged s1.initialNbins s1.chunkSize s1.initialChunkSize (s1.count + o.count)
      s1 o f4 ho2w ho1w f1 (by omega) k, f5 k]
  · by_cases hb2 : o.minKey < s.minKey
    · rw [if_neg hb1, if_pos hb2]
      dsimp only
      refine ⟨rfl, ?_⟩
      intro k
      rw [binAt_merged s.initialNbins s.chunkSize s.initialChunkSize (s.count + o.count)
        o s ho2w hs2w hs1w (by omega) (by omega) k]
      omega
    · rw [if_neg hb1, if_neg hb2]
      dsimp only
      obtain ⟨g1, g2, g3, g4, g5, g6, g7, g8⟩ :=
        DenseStore.growRight_spec s o.maxKey hsc (by omega)
      have hw1 : ((s.growRight o.maxKey).bins.length : Int)
          = (s.growRight o.maxKey).maxKey - (s.growRight o.maxKey).minKey + 1 := by omega
      refine ⟨by omega, ?_⟩
      intro k
      rw [binAt_merged (s.growRight o.maxKey).initialNbins (s.growRight o.maxKey).chunkSize
        (s.growRight o.maxKey).initialChunkSize ((s.growRight o.maxKey).count + o.count)
        (s.growRight o.maxKey) o hw1 ho2w ho1w (by omega) (by omega) k]
      rw [binAt_growRight s o.maxKey k hsc hs2w]

/-! ### Claim theorems -/

/-- C10: the `CollapsingLowestDenseStore` constructor never propagates its
`chunk_size` argument into the `chunk_size` field used by `_grow_by`
(`super().__init__()` is called with no arguments, so the field stays at
the module default `CHUNK_SIZE = 128`); only `initial_nbins` (clamped to
`min(max_bins, initial_nbins)`) and `initial_chunk_size` (clamped to
`min(max_bins, chunk_size)`) reflect the constructor arguments. -/
theorem claim_C10_chunk_size_ignored (max_bins initial_nbins chunk_size : Int) :
    (CollapsingLowestDenseStore.init max_bins initial_nbins chunk_size).chunkSize
      = CHUNK_SIZE ∧
    (CollapsingLowestDenseStore.init max_bins initial_nbins chunk_size).initialNbins
      = min max_bins initial_nbins ∧
    (CollapsingLowestDenseStore.init max_bins initial_nbins chunk_size).initialChunkSize
      = min max_bins chunk_size :=
  ⟨rfl, rfl, rfl⟩

/-- C9: merging a store with `count == 0` into any store of the same
variant leaves every field of the target unchanged; merging any non-empty
store into a store with `count == 0` copies the source's bins, count,
min_key and max_key into the target. -/
theorem claim_C9_empty_merge :
    (∀ s o : DenseStore, o.count = 0 → s.merge o = s) ∧
    (∀ s o : DenseStore, s.count = 0 → o.count ≠ 0 →
      (s.merge o).bins = o.bins ∧ (s.merge o).count = o.count ∧
      (s.merge o).minKey = o.minKey ∧ (s.merge o).maxKey = o.maxKey) ∧
    (∀ s o : CollapsingLowestDenseStore, o.count = 0 → s.merge o = s) ∧
    (∀ s o : CollapsingLowestDenseStore, s.count = 0 → o.count ≠ 0 →
      (s.merge o).bins = o.bins ∧ (s.merge o).count = o.count ∧
      (s.merge o).minKey = o.minKey ∧ (s.merge o).maxKey = o.maxKey) := by
  refine ⟨?_, ?_, ?_, ?_⟩
  · intro s o h0
    unfold DenseStore.merge
    rw [if_pos h0]
  · intro s o hs0 ho0
    unfold DenseStore.merge
    rw [if_neg ho0, if_pos hs0]
    exact ⟨rfl, rfl, rfl, rfl⟩
  · intro s o h0
    unfold CollapsingLowestDenseStore.merge
    rw [if_pos h0]
  · intro s o hs0 ho0
    unfold CollapsingLowestDenseStore.merge
    rw [if_neg ho0, if_pos hs0]
    exact ⟨rfl, rfl, rfl, rfl⟩

/-- Witness for C9 at a concrete input. -/
theorem claim_C9_empty_merge_witness :
    (DenseStore.init 4 4).merge (DenseStore.init 4 4) = DenseStore.init 4 4 :=
  claim_C9_empty_merge.1 (DenseStore.init 4 4) (DenseStore.init 4 4) rfl

set_option maxRecDepth 100000 in
/-- C6 counterexample: constructing a `DenseStore` with `chunk_size = 0`
does not raise; it returns a store with 128 pre-allocated bins on which
`add(5)` succeeds (the bin update is in bounds and the count becomes 1),
so the claim that invalid configurations fail fast at construction is
false for the code as written. -/
theorem claim_C6_counterexample :
    (DenseStore.init 128 0).bins.length = 128 ∧
    (DenseStore.init 128 0).addOK 5 = true ∧
    ((DenseStore.init 128 0).add 5).count = 1 := by
  refine ⟨by decide, by decide, by decide⟩

set_option maxRecDepth 100000 in
/-- C6 amended: neither constructor validates its arguments.  Both are
total: `DenseStore.__init__` stores `chunk_size` verbatim and allocates
`max(initial_nbins, 0)` zero bins; `CollapsingLowestDenseStore.__init__`
clamps with `min` and never raises.  Failures surface only later:
`DenseStore(chunk_size=0)` still accepts in-range adds, while
`CollapsingLowestDenseStore(max_bins=0)` has an empty bin list so its
first `add` is out of bounds (an `IndexError` at add time, not at
construction time). -/
theorem claim_C6_amended :
    (∀ initial_nbins chunk_size : Int,
      (DenseStore.init initial_nbins chunk_size).count = 0 ∧
      (DenseStore.init initial_nbins chunk_size).chunkSize = chunk_size ∧
      (DenseStore.init initial_nbins chunk_size).bins.length = initial_nbins.toNat) ∧
    (∀ max_bins initial_nbins chunk_size : Int,
      (CollapsingLowestDenseStore.init max_bins initial_nbins chunk_size).maxBins
        = max_bins ∧
      (CollapsingLowestDenseStore.init max_bins initial_nbins chunk_size).count = 0 ∧
      (CollapsingLowestDenseStore.init max_bins initial_nbins chunk_size).bins.length
        = (min max_bins initial_nbins).toNat) ∧
    (DenseStore.init 128 0).addOK 5 = true ∧
    ((DenseStore.init 128 0).add 5).count = 1 ∧
    (CollapsingLowestDenseStore.init 0 128 128).addOK 7 = false := by
  refine ⟨?_, ?_, by decide, by decide, by decide⟩
  · intro n c
    exact ⟨rfl, rfl, by simp [DenseStore.init]⟩
  · intro m n c
    exact ⟨rfl, rfl, by simp [CollapsingLowestDenseStore.init]⟩

set_option maxRecDepth 100000 in
/-- C1 failing input: a `CollapsingLowestDenseStore` constructed with
`max_bins = 130` (default `initial_nbins = chunk_size = 128`) reaches 131
bins after `add(0); add(1)`, exceeding its cap: the chunked-growth branch
of `_grow_right` caps `max_key` at `min_key + max_bins` instead of
`min_key + max_bins - 1`, allowing a window of `max_bins + 1` bins.  The
state is reachable through ordinary adds. -/
theorem claim_C1_failing_input :
    (((CollapsingLowestDenseStore.init 130 128 128).add 0).add 1).length = 131 ∧
    (((CollapsingLowestDenseStore.init 130 128 128).add 0).add 1).maxBins = 130 ∧
    CollReachable (((CollapsingLowestDenseStore.init 130 128 128).add 0).add 1) := by
  refine ⟨by decide, by decide, ?_⟩
  exact CollReachable.add _ 1 (CollReachable.add _ 0
    (CollReachable.init 130 128 128 (by decide) (by decide)))

theorem addWith_parts (growL growR : DenseStore → Int → DenseStore) (s : DenseStore)
    (key : Int) (h : DenseInv s)
    (hspec :
      (addPrepWith growL growR s key).chunkSize = s.chunkSize ∧
      (addPrepWith growL growR s key).initialChunkSize = s.initialChunkSize ∧
      (addPrepWith growL growR s key).count = s.count ∧
      (addPrepWith growL growR s key).bins.sum = s.bins.sum ∧
      (addPrepWith growL growR s key).minKey ≤ (addPrepWith growL growR s key).maxKey ∧
      ((addPrepWith growL growR s key).bins.length : Int)
        = (addPrepWith growL growR s key).maxKey
          - (addPrepWith growL growR s key).minKey + 1 ∧
      max 0 (key - (addPrepWith growL growR s key).minKey)
        < ((addPrepWith growL growR s key).bins.length : Int)) :
    addOKWith growL growR s key = true ∧
    (addWith growL growR s key).count = s.count + 1 ∧
    (addWith growL growR s key).bins.sum = s.bins.sum + 1 ∧
    ∃ j : Nat, (j : Int) = max 0 (key - (addPrepWith growL growR s key).minKey) ∧
      j < (addPrepWith growL growR s key).bins.length ∧
      (addWith growL growR s key).bins = (addPrepWith growL growR s key).bins.set j
        ((addPrepWith growL growR s key).bins.getD j 0 + 1) := by
  obtain ⟨hall, hOK, hcount⟩ := addWith_inv growL growR s key h hspec
  obtain ⟨t1, t2, t3, t4, t5, t6, t7⟩ := hspec
  have hidx0 : (0 : Int) ≤ max 0 (key - (addPrepWith growL growR s key).minKey) :=
    le_max_left _ _
  refine ⟨hOK, hcount, ?_, ?_⟩
  · unfold addWith
    dsimp only
    rw [sum_pyAddAt _ _ _ ?_]
    · omega
    · rw [idxOK_iff, pyIdx_of_nonneg _ _ hidx0]
      omega
  · refine ⟨(max 0 (key - (addPrepWith growL growR s key).minKey)).toNat, by omega,
      by omega, ?_⟩
    unfold addWith
    dsimp only
    rw [pyAddAt_eq_set _ _ _ hidx0]

/-- C2: for every store of either variant reachable from a valid
construction through any sequence of add and (successful) merge
operations, `count` equals the sum of all bin counters; in particular no
added increment is ever lost, including on the collapsing store's
at-capacity left path, where the increment lands in the clamped boundary
bin 0 and still contributes to the sum. -/
theorem claim_C2_mass_conservation :
    (∀ s : DenseStore, DenseReachable s → s.count = s.bins.sum) ∧
    (∀ s : CollapsingLowestDenseStore, CollReachable s → s.count = s.bins.sum) := by
  constructor
  · intro s h
    exact (dense_reachable_inv s h).2.2.1
  · intro s h
    exact (coll_reachable_inv s h).2.2.2.1

/-- Witness for C2 at a concrete input. -/
theorem claim_C2_mass_conservation_witness :
    ((DenseStore.init 4 4).add 7).count = ((DenseStore.init 4 4).add 7).bins.sum :=
  claim_C2_mass_conservation.1 _
    (DenseReachable.add _ 7 (DenseReachable.init 4 4 (by decide)))

/-- C5: from every reachable state of either variant (valid construction:
`chunk_size >= 1`, and `max_bins >= 1` for the collapsing variant),
`add(key)` succeeds for every integer key: the accessed bin index
`max(0, key - min_key)` is within the bounds of the (possibly grown) bin
array, exactly one counter is incremented by 1 (the bin list is the old
one with a single position updated), and `count` increases by 1. -/
theorem claim_C5_add_never_fails :
    (∀ (s : DenseStore) (key : Int), DenseReachable s →
      s.addOK key = true ∧
      (s.add key).count = s.count + 1 ∧
      (s.add key).bins.sum = s.bins.sum + 1 ∧
      ∃ j : Nat,
        (j : Int) = max 0 (key - (addPrepWith DenseStore.growLeft DenseStore.growRight
          s key).minKey) ∧
        j < (addPrepWith DenseStore.growLeft DenseStore.growRight s key).bins.length ∧
        (s.add key).bins = (addPrepWith DenseStore.growLeft DenseStore.growRight s
          key).bins.set j
          ((addPrepWith DenseStore.growLeft DenseStore.growRight s key).bins.getD j 0 + 1)) ∧
    (∀ (s : CollapsingLowestDenseStore) (key : Int), CollReachable s →
      s.addOK key = true ∧
      (s.add key).count = s.count + 1 ∧
      (s.add key).bins.sum = s.bins.sum + 1 ∧
      ∃ j : Nat,
        (j : Int) = max 0 (key - (addPrepWith (collGrowLeft s.maxBins)
          (collGrowRight s.maxBins) s.toDenseStore key).minKey) ∧
        j < (addPrepWith (collGrowLeft s.maxBins) (collGrowRight s.maxBins)
          s.toDenseStore key).bins.length ∧
        (s.add key).bins = (addPrepWith (collGrowLeft s.maxBins) (collGrowRight s.maxBins)
          s.toDenseStore key).bins.set j
          ((addPrepWith (collGrowLeft s.maxBins) (collGrowRight s.maxBins)
            s.toDenseStore key).bins.getD j 0 + 1)) := by
  constructor
  · intro s key hr
    have h := dense_reachable_inv s hr
    exact addWith_parts DenseStore.growLeft DenseStore.growRight s key h
      (dense_addPrep_spec s key h)
  · intro s key hr
    obtain ⟨hm, hd⟩ := coll_reachable_inv s hr
    exact addWith_parts (collGrowLeft s.maxBins) (collGrowRight s.maxBins) s.toDenseStore
      key hd (coll_addPrep_spec s.maxBins s.toDenseStore key hm hd)

/-- Witness for C5 at a concrete input. -/
theorem claim_C5_add_never_fails_witness :
    (CollapsingLowestDenseStore.init 3 4 4).addOK 9 = true :=
  ((claim_C5_add_never_fails.2 (CollapsingLowestDenseStore.init 3 4 4) 9
    (CollReachable.init 3 4 4 (by decide) (by decide)))).1

/-- C4: for every reachable store of either variant with `count > 0`:
for every rank in `[1, count]`, `key_at_rank(rank)` returns the smallest
key whose cumulative count of bins with key `<= k` reaches `rank`
(it reaches `rank` at the returned key and stays below `rank` at every
smaller key); for every rank greater than `count` it returns `max_key`. -/
theorem claim_C4_key_at_rank :
    (∀ s : DenseStore, DenseReachable s → 0 < s.count → ∀ rank : Int,
      (1 ≤ rank → rank ≤ (s.count : Int) →
        rank ≤ (cumLE s (s.keyAtRank rank) : Int) ∧
          ∀ k : Int, k < s.keyAtRank rank → (cumLE s k : Int) < rank) ∧
      ((s.count : Int) < rank → s.keyAtRank rank = s.maxKey)) ∧
    (∀ s : CollapsingLowestDenseStore, CollReachable s → 0 < s.count → ∀ rank : Int,
      (1 ≤ rank → rank ≤ (s.count : Int) →
        rank ≤ (cumLE s.toDenseStore (s.keyAtRank rank) : Int) ∧
          ∀ k : Int, k < s.keyAtRank rank → (cumLE s.toDenseStore k : Int) < rank) ∧
      ((s.count : Int) < rank → s.keyAtRank rank = s.maxKey)) := by
  constructor
  · intro s hr h0 rank
    have hcnt := (dense_reachable_inv s hr).2.2.1
    exact ⟨fun h1 h2 => keyAtRank_found s rank hcnt h1 h2,
      fun h => keyAtRank_overflow s rank hcnt h⟩
  · intro s hr h0 rank
    have hcnt := (coll_reachable_inv s hr).2.2.2.1
    exact ⟨fun h1 h2 => keyAtRank_found s.toDenseStore rank hcnt h1 h2,
      fun h => keyAtRank_overflow s.toDenseStore rank hcnt h⟩

/-- Witness for C4 at a concrete input. -/
theorem claim_C4_key_at_rank_witness :
    1 ≤ (cumLE ((DenseStore.init 4 4).add 7) (((DenseStore.init 4 4).add 7).keyAtRank 1)
      : Int) :=
  ((claim_C4_key_at_rank.1 ((DenseStore.init 4 4).add 7)
    (DenseReachable.add _ 7 (DenseReachable.init 4 4 (by decide)))
    (by decide) 1).1 (by decide) (by decide)).1

set_option maxRecDepth 100000 in
/-- C3: merging two non-empty default-configured `DenseStore`s built by
add sequences A and B yields, at every key, the number of occurrences of
that key in the concatenation of A and B (mass inside the key window,
zero outside), with `count = |A| + |B|`; concretely, a store built from
`add([1,2,3])` merged with one built from `add([2,2,5])` holds counts
`{1:1, 2:3, 3:1, 5:1}`. -/
theorem claim_C3_merge_equivalence :
    (∀ A B : List Int, A ≠ [] → B ≠ [] →
      ((buildDense A).merge (buildDense B)).count = A.length + B.length ∧
      ∀ k : Int, binAt ((buildDense A).merge (buildDense B)) k
        = countOcc A k + countOcc B k) ∧
    (((buildDense [1, 2, 3]).merge (buildDense [2, 2, 5])).count = 6 ∧
      binAt ((buildDense [1, 2, 3]).merge (buildDense [2, 2, 5])) 1 = 1 ∧
      binAt ((buildDense [1, 2, 3]).merge (buildDense [2, 2, 5])) 2 = 3 ∧
      binAt ((buildDense [1, 2, 3]).merge (buildDense [2, 2, 5])) 3 = 1 ∧
      binAt ((buildDense [1, 2, 3]).merge (buildDense [2, 2, 5])) 5 = 1) := by
  have hgen : ∀ A B : List Int, A ≠ [] → B ≠ [] →
      ((buildDense A).merge (buildDense B)).count = A.length + B.length ∧
      ∀ k : Int, binAt ((buildDense A).merge (buildDense B)) k
        = countOcc A k + countOcc B k := by
    intro A B hA hB
    obtain ⟨a1, a2, a3⟩ := buildDense_spec A
    obtain ⟨b1, b2, b3⟩ := buildDense_spec B
    have hA0 : (buildDense A).count ≠ 0 := by
      rw [a2]
      intro h
      exact hA (List.length_eq_zero.mp h)
    have hB0 : (buildDense B).count ≠ 0 := by
      rw [b2]
      intro h
      exact hB (List.length_eq_zero.mp h)
    obtain ⟨m1, m2⟩ := binAt_dense_merge _ _ a1 b1 hA0 hB0
    refine ⟨by rw [m1, a2, b2], ?_⟩
    intro k
    rw [m2 k, a3 k, b3 k]
  refine ⟨hgen, ?_⟩
  obtain ⟨c1, c2⟩ := hgen [1, 2, 3] [2, 2, 5] (by decide) (by decide)
  refine ⟨by rw [c1]; decide, ?_, ?_, ?_, ?_⟩
  · rw [c2 1]
    decide
  · rw [c2 2]
    decide
  · rw [c2 3]
    decide
  · rw [c2 5]
    decide

/-- Witness for C3 at a concrete input. -/
theorem claim_C3_merge_equivalence_witness :
    ((buildDense [0]).merge (buildDense [1])).count = 2 := by
  have h := (claim_C3_merge_equivalence.1 [0] [1] (by decide) (by decide)).1
  simpa using h

set_option maxRecDepth 100000 in
/-- C7 counterexample: with `max_bins = 1` the collapsed boundary bin and
the bin for the new key coincide, so after `add(0); add(10)` on a
`CollapsingLowestDenseStore(max_bins=1)` the bin at `min_key` holds the
previous count plus the new increment (2), not the previous count (1) —
the claim's conjunction is false at this input even though its
hypotheses (`count > 0`, `key - max_key >= max_bins >= 1`) hold. -/
theorem claim_C7_counterexample :
    ((CollapsingLowestDenseStore.init 1 128 128).add 0).count = 1 ∧
    (1 : Int) ≤ 10 - ((CollapsingLowestDenseStore.init 1 128 128).add 0).maxKey ∧
    (((CollapsingLowestDenseStore.init 1 128 128).add 0).add 10).minKey = 10 ∧
    ¬((((CollapsingLowestDenseStore.init 1 128 128).add 0).add 10).bins.getD 0 0
      = ((CollapsingLowestDenseStore.init 1 128 128).add 0).count) := by
  refine ⟨by decide, by decide, by decide, by decide⟩

theorem coll_add_collapse_all (s : CollapsingLowestDenseStore) (key : Int)
    (hr : CollReachable s) (h0 : 0 < s.count) (hm2 : 2 ≤ s.maxBins)
    (hA : s.maxBins ≤ key - s.maxKey) :
    (s.add key).maxKey = key ∧ (s.add key).minKey = key - s.maxBins + 1 ∧
    ((s.add key).bins.length : Int) = s.maxBins ∧
    (s.add key).bins.getD 0 0 = s.count ∧
    (∀ j : Nat, 0 < j → (j : Int) < s.maxBins - 1 → (s.add key).bins.getD j 0 = 0) ∧
    (s.add key).bins.getD (s.maxBins - 1).toNat 0 = 1 ∧
    (s.add key).count = s.count + 1 := by
  obtain ⟨hm, hc, hics, hcnt, hwind⟩ := coll_reachable_inv s hr
  obtain ⟨hw1, hw2⟩ := hwind (by omega)
  have hlen0 : s.toDenseStore.bins.length ≠ 0 := by omega
  have hprep : addPrepWith (collGrowLeft s.maxBins) (collGrowRight s.maxBins)
      s.toDenseStore key = collGrowRight s.maxBins s.toDenseStore key :=
    addPrep_growRight _ _ _ key hlen0 (by omega) (by omega) (by omega)
  have hgrow : collGrowRight s.maxBins s.toDenseStore key
      = { s.toDenseStore with
          bins := pySetAt (List.replicate s.maxBins.toNat 0) 0 s.count,
          maxKey := key, minKey := key - s.maxBins + 1 } := by
    unfold collGrowRight
    rw [if_neg (by omega), if_pos (by omega)]
  have hset : pySetAt (List.replicate s.maxBins.toNat 0) 0 s.count
      = (List.replicate s.maxBins.toNat 0).set 0 s.count := by
    simp [pySetAt, pyIdx]
  have hsetlen : ((List.replicate s.maxBins.toNat 0).set 0 s.count).length
      = s.maxBins.toNat := by
    rw [List.length_set, List.length_replicate]
  unfold CollapsingLowestDenseStore.add addWith
  dsimp only
  rw [hprep, hgrow, hset]
  dsimp only
  have hidx : max 0 (key - (key - s.maxBins + 1)) = s.maxBins - 1 := by omega
  rw [hidx]
  have hinb : 0 ≤ s.maxBins - 1 ∧
      s.maxBins - 1 < ((((List.replicate s.maxBins.toNat 0).set 0 s.count)).length : Int) := by
    rw [hsetlen]
    omega
  refine ⟨rfl, rfl, ?_, ?_, ?_, ?_, rfl⟩
  · rw [length_pyAddAt, hsetlen]
    omega
  · rw [getD_pyAddAt_ne _ _ _ 0 (by omega) (by push_cast; omega)]
    exact getD_set_self _ 0 s.count (by rw [List.length_replicate]; omega)
  · intro j hj1 hj2
    rw [getD_pyAddAt_ne _ _ _ j (by omega) (by omega)]
    rw [getD_set_ne _ j 0 s.count (by omega)]
    exact getD_replicate_zero _ j
  · have harg : ((s.maxBins - 1).toNat : Int) = s.maxBins - 1 := by omega
    have := getD_pyAddAt_eq ((List.replicate s.maxBins.toNat 0).set 0 s.count)
      (s.maxBins - 1) 1 hinb
    rw [this]
    rw [getD_set_ne _ (s.maxBins - 1).toNat 0 s.count (by omega)]
    rw [getD_replicate_zero]

set_option maxRecDepth 100000 in
/-- C7 amended: for every reachable `CollapsingLowestDenseStore` with
`max_bins >= 2` and `count > 0`, `add(key)` with
`key - max_key >= max_bins` collapses the whole distribution: afterwards
`max_key = key`, `min_key = key - max_bins + 1`, the array has exactly
`max_bins` bins, the bin at `min_key` holds the entire previous count,
the bins strictly between `min_key` and `key` are zero, and the bin at
`key` holds the new increment 1.  (When `max_bins = 1` the two
distinguished bins coincide and hold `count + 1`.)  Concretely, with
`max_bins = 3`, after `add(0); add(10)`: `length() <= 3`, `count == 2`,
and the boundary bin holds the folded mass 1. -/
theorem claim_C7_collapse_all :
    (∀ (s : CollapsingLowestDenseStore) (key : Int), CollReachable s → 0 < s.count →
      2 ≤ s.maxBins → s.maxBins ≤ key - s.maxKey →
      (s.add key).maxKey = key ∧ (s.add key).minKey = key - s.maxBins + 1 ∧
      ((s.add key).bins.length : Int) = s.maxBins ∧
      (s.add key).bins.getD 0 0 = s.count ∧
      (∀ j : Nat, 0 < j → (j : Int) < s.maxBins - 1 → (s.add key).bins.getD j 0 = 0) ∧
      (s.add key).bins.getD (s.maxBins - 1).toNat 0 = 1 ∧
      (s.add key).count = s.count + 1) ∧
    ((((CollapsingLowestDenseStore.init 3 128 128).add 0).add 10).length ≤ 3 ∧
      (((CollapsingLowestDenseStore.init 3 128 128).add 0).add 10).count = 2 ∧
      (((CollapsingLowestDenseStore.init 3 128 128).add 0).add 10).bins.getD 0 0 = 1) := by
  refine ⟨fun s key hr h0 hm2 hA => coll_add_collapse_all s key hr h0 hm2 hA,
    by decide, by decide, by decide⟩

/-- Witness for C7 at a concrete input. -/
theorem claim_C7_collapse_all_witness :
    (((CollapsingLowestDenseStore.init 3 4 4).add 0).add 9).maxKey = 9 :=
  (claim_C7_collapse_all.1 ((CollapsingLowestDenseStore.init 3 4 4).add 0) 9
    (CollReachable.add _ 0 (CollReachable.init 3 4 4 (by decide) (by decide)))
    (by decide) (by decide) (by decide)).1

/-- C8: for every reachable unbounded `DenseStore` with `count > 0`:
`add(key)` with `key < min_key` grows the array by exactly
`_grow_by(min_key - key) = chunk_size * ceil((min_key - key)/chunk_size)`
zero bins on the left and lowers `min_key` by that amount with `max_key`
unchanged; `add(key)` with `key > max_key` grows by exactly
`_grow_by(key - max_key)` on the right and raises `max_key` by that
amount with `min_key` unchanged; `add(key)` with
`min_key <= key <= max_key` changes none of array length, `min_key`,
`max_key`. -/
theorem claim_C8_chunked_growth :
    ∀ (s : DenseStore) (key : Int), DenseReachable s → 0 < s.count →
      (key < s.minKey →
        ((s.add key).bins.length : Int)
          = s.bins.length + growBy s.chunkSize (s.minKey - key) ∧
        (s.add key).minKey = s.minKey - growBy s.chunkSize (s.minKey - key) ∧
        (s.add key).maxKey = s.maxKey) ∧
      (s.maxKey < key →
        ((s.add key).bins.length : Int)
          = s.bins.length + growBy s.chunkSize (key - s.maxKey) ∧
        (s.add key).maxKey = s.maxKey + growBy s.chunkSize (key - s.maxKey) ∧
        (s.add key).minKey = s.minKey) ∧
      (s.minKey ≤ key → key ≤ s.maxKey →
        (s.add key).bins.length = s.bins.length ∧
        (s.add key).minKey = s.minKey ∧ (s.add key).maxKey = s.maxKey) := by
  intro s key hr h0
  obtain ⟨hc, hics, hcnt, hwind⟩ := dense_reachable_inv s hr
  obtain ⟨hw1, hw2⟩ := hwind (by omega)
  have hlen0 : s.bins.length ≠ 0 := by omega
  refine ⟨?_, ?_, ?_⟩
  · intro hk
    have hgb := le_growBy s.chunkSize (s.minKey - key) hc
    unfold DenseStore.add addWith
    dsimp only
    rw [addPrep_growLeft _ _ s key hlen0 (by omega) hk]
    unfold DenseStore.growLeft
    rw [if_neg (by omega)]
    dsimp only
    refine ⟨?_, rfl, rfl⟩
    rw [length_pyAddAt, List.length_append, List.length_replicate]
    push_cast
    omega
  · intro hk
    have hgb := le_growBy s.chunkSize (key - s.maxKey) hc
    unfold DenseStore.add addWith
    dsimp only
    rw [addPrep_growRight _ _ s key hlen0 (by omega) (by omega) (by omega)]
    unfold DenseStore.growRight
    rw [if_neg (by omega)]
    dsimp only
    refine ⟨?_, rfl, rfl⟩
    rw [length_pyAddAt, List.length_append, List.length_replicate]
    push_cast
    omega
  · intro hk1 hk2
    unfold DenseStore.add addWith
    dsimp only
    rw [addPrep_inRange _ _ s key hlen0 (by omega) (by omega) (by omega)]
    exact ⟨length_pyAddAt _ _ _, rfl, rfl⟩

/-- Witness for C8 at a concrete input. -/
theorem claim_C8_chunked_growth_witness :
    (((DenseStore.init 4 4).add 0).add 0).bins.length
      = ((DenseStore.init 4 4).add 0).bins.length :=
  ((claim_C8_chunked_growth ((DenseStore.init 4 4).add 0) 0
    (DenseReachable.add _ 0 (DenseReachable.init 4 4 (by decide)))
    (by decide)).2.2 (by decide) (by decide)).1
